import Mathlib

/-!
Shallow embedding of the GMOD taxonomy engine of the vista-sdk repository
(crates `sdk`, `sdk_resources`): node/edge storage, construction from the
DTO, lookup, product-type / product-selection inference, and the
depth-first traversal with path-scoped cycle tracking.

Rust `u32`/`usize` indices are modelled as `Nat` (the construction only
ever produces indices below the node count, so no wrap-around arithmetic
is involved).  Rust panics (`unwrap`, `expect`, `todo!`, out-of-bounds
indexing) are modelled by `Option`/`none`; list indexing inside the
engine uses `getD` with a default node, which is only reached in states
the Rust code would have panicked on or that are excluded by the stated
hypotheses.  The Rust traversal recursion is modelled with explicit fuel;
fuel exhaustion is `none`, and its impossibility for well-formed graphs
is one of the proved properties.
-/

namespace VistaSdk

/-- Rust `TraversalHandlerResult` from `sdk/src/gmod.rs`. -/
inductive TraversalHandlerResult where
  | Stop
  | SkipSubtree
  | Continue
deriving DecidableEq, Repr

/-- Rust `GmodNodeMetadata` from `sdk/src/gmod.rs`; the Rust `HashMap` of
normal-assignment names is modelled as an association list. -/
structure GmodNodeMetadata where
  category : String
  node_type : String
  name : Option String
  common_name : Option String
  definition : Option String
  common_definition : Option String
  install_substructure : Option Bool
  normal_assignment_names : List (String × String)
deriving DecidableEq, Repr

/-- Rust `GmodNode` from `sdk/src/gmod.rs`. -/
structure GmodNode where
  code : String
  location : String
  metadata : GmodNodeMetadata
deriving DecidableEq, Repr

instance : Inhabited GmodNodeMetadata :=
  ⟨⟨"", "", none, none, none, none, none, []⟩⟩

instance : Inhabited GmodNode :=
  ⟨⟨"", "", default⟩⟩

/-- Rust `Gmod` from `sdk/src/gmod.rs`.  The Rust `HashMap<String, u32>` index
is modelled as an association list with overwrite-on-insert semantics and
`List.lookup` as the read operation. -/
structure Gmod where
  version : String
  index : List (String × Nat)
  children : List (List Nat)
  parents : List (List Nat)
  nodes : List GmodNode

/-- Rust `GmodNodeDto` from `sdk_resources/src/gmod.rs`. -/
structure GmodNodeDto where
  category : String
  node_type : String
  code : String
  name : Option String
  common_name : Option String
  definition : Option String
  common_definition : Option String
  install_substructure : Option Bool
  normal_assignment_names : Option (List (String × String))
deriving DecidableEq, Repr

instance : Inhabited GmodNodeDto :=
  ⟨⟨"", "", "", none, none, none, none, none, none⟩⟩

/-- Rust `GmodDto` from `sdk_resources/src/gmod.rs`; a relation `[parent, child]`
is modelled as a pair. -/
structure GmodDto where
  vis_release : String
  items : List GmodNodeDto
  relations : List (String × String)
deriving DecidableEq, Repr

/-- Rust `HashMap::insert` on the code index: overwrite the binding if the key
is present, otherwise append it. -/
def insertIndex (m : List (String × Nat)) (k : String) (v : Nat) : List (String × Nat) :=
  if (m.lookup k).isSome then
    m.map (fun p => if p.1 = k then (p.1, v) else p)
  else
    m ++ [(k, v)]

/-- The first loop of `Gmod::new`: allocate one arena slot per DTO item in
input order, recording `code → index`. -/
def buildIndex : List GmodNodeDto → Nat → List (String × Nat) → List (String × Nat)
  | [], _, m => m
  | it :: rest, i, m => buildIndex rest (i + 1) (insertIndex m it.code i)

/-- Conversion of one DTO item into the arena node, as in the first loop of
`Gmod::new` (`location` starts empty, absent assignment-name maps default
to empty). -/
def nodeOfDto (it : GmodNodeDto) : GmodNode :=
  { code := it.code
    location := ""
    metadata :=
      { category := it.category
        node_type := it.node_type
        name := it.name
        common_name := it.common_name
        definition := it.definition
        common_definition := it.common_definition
        install_substructure := it.install_substructure
        normal_assignment_names := it.normal_assignment_names.getD [] } }

/-- One step of the second loop of `Gmod::new`: resolve both codes of a
relation (the Rust `unwrap` panics on an unresolvable code, modelled by
`none`), then push the child index onto the parent's children list and the
parent index onto the child's parents list. -/
def addRelation (index : List (String × Nat)) (st : List (List Nat) × List (List Nat))
    (rel : String × String) : Option (List (List Nat) × List (List Nat)) :=
  match index.lookup rel.1, index.lookup rel.2 with
  | some p, some c =>
      some (st.1.set p (st.1.getD p [] ++ [c]), st.2.set c (st.2.getD c [] ++ [p]))
  | _, _ => none

/-- The second loop of `Gmod::new`, folded over the relation list. -/
def addRelations (index : List (String × Nat)) :
    List (String × String) → List (List Nat) × List (List Nat) →
    Option (List (List Nat) × List (List Nat))
  | [], st => some st
  | rel :: rest, st =>
    match addRelation index st rel with
    | none => none
    | some st1 => addRelations index rest st1

/-- Rust `Gmod::new` from `sdk/src/gmod.rs`.  Here `none` models the panic on an
unresolvable relation code.  The `VisVersion` parse of the version tag is
generated code outside the repository sources; the tag is carried through
as the string itself. -/
def Gmod.new (dto : GmodDto) : Option Gmod :=
  let index := buildIndex dto.items 0 []
  let nodes := dto.items.map nodeOfDto
  let empties : List (List Nat) := List.replicate dto.items.length []
  match addRelations index dto.relations (empties, empties) with
  | none => none
  | some st =>
      some { version := dto.vis_release
             index := index
             children := st.1
             parents := st.2
             nodes := nodes }

/-- Substring containment, as Rust `str::contains` with a string pattern:
some contiguous run of `s` equals `sub`. -/
def strContains (s sub : String) : Bool :=
  decide (sub.toList <:+: s.toList)

/-- Rust `Gmod::get_product_type_for` from `sdk/src/gmod.rs`.  The Rust
`self.index[&node.code]` panics when the code is absent; that branch is
modelled as `none` and is excluded by the hypotheses of the theorems
below, which only consider nodes of the taxonomy. -/
def get_product_type_for (g : Gmod) (node : GmodNode) : Option GmodNode :=
  match g.index.lookup node.code with
  | none => none
  | some index =>
    let children := g.children.getD index []
    if children.length ≠ 1 then none
    else if ¬ strContains node.metadata.category "FUNCTION" then none
    else
      let child := g.nodes.getD (children.getD 0 0) default
      if child.metadata.category ≠ "PRODUCT" ∨ child.metadata.node_type ≠ "TYPE" then none
      else some child

/-- Rust `Gmod::get_product_selection_for` from `sdk/src/gmod.rs`; as
`get_product_type_for` except that the child's category must contain
"PRODUCT" and its node type must equal "SELECTION". -/
def get_product_selection_for (g : Gmod) (node : GmodNode) : Option GmodNode :=
  match g.index.lookup node.code with
  | none => none
  | some index =>
    let children := g.children.getD index []
    if children.length ≠ 1 then none
    else if ¬ strContains node.metadata.category "FUNCTION" then none
    else
      let child := g.nodes.getD (children.getD 0 0) default
      if ¬ strContains child.metadata.category "PRODUCT" ∨ child.metadata.node_type ≠ "SELECTION" then none
      else some child

/-- Rust `GmodNode::is_mappable` from `sdk/src/gmod.rs` is `todo!()`: it panics
unconditionally, modelled as the constantly-`none` partial function. -/
def is_mappable (_node : GmodNode) : Option Bool :=
  none

/-- Rust `VecSet::insert` from `sdk/src/gmod.rs`. -/
def vecSetInsert (l : List Nat) (v : Nat) : List Nat :=
  if l.contains v then l else l ++ [v]

/-- Rust `VecSet::remove` from `sdk/src/gmod.rs` (`retain` of the other values). -/
def vecSetRemove (l : List Nat) (v : Nat) : List Nat :=
  l.filter (fun x => x ≠ v)

/-- Rust `TraversalContext` from `sdk/src/gmod.rs`; the handler's captured
mutable environment (Rust `FnMut`) is carried as an explicit state of
type `S`. -/
structure TraversalContext (S : Type) where
  ids : List Nat
  parents : List Nat
  state : S

/-- The handler shape: Rust `FnMut(&dyn Iterator<Item = &GmodNode>, &GmodNode)
-> TraversalHandlerResult`, with the captured environment made explicit. -/
def GmodHandler (S : Type) : Type :=
  S → List GmodNode → GmodNode → S × TraversalHandlerResult

/-- Rust `TraversalContext::pop`: pop the last pushed index and remove it from
the id set (the Rust `unwrap` is always preceded by a push). -/
def ctxPop {S : Type} (ctx : TraversalContext S) : TraversalContext S :=
  let parent := ctx.parents.getLastD 0
  { ctx with ids := vecSetRemove ctx.ids parent, parents := ctx.parents.dropLast }

/-- The children loop of `Gmod::traverse_node`, abstracted over the
recursive call on one child (`step`): a child returning `Stop` aborts the
loop (the enclosing call returns without popping); any other child result
continues with the remaining siblings. -/
def traverseChildrenLoop {S : Type}
    (step : TraversalContext S → Nat →
      Option (TraversalContext S × TraversalHandlerResult × List (Nat × TraversalHandlerResult))) :
    TraversalContext S → List Nat →
    Option (TraversalContext S × TraversalHandlerResult × List (Nat × TraversalHandlerResult))
  | ctx, [] => some (ctx, .Continue, [])
  | ctx, c :: rest =>
    match step ctx c with
    | none => none
    | some (ctx1, r, log1) =>
      if r = .Stop then
        some (ctx1, .Stop, log1)
      else
        match traverseChildrenLoop step ctx1 rest with
        | none => none
        | some (ctx2, r2, log2) => some (ctx2, r2, log1 ++ log2)

/-- Rust `Gmod::traverse_node` from `sdk/src/gmod.rs`, with explicit fuel
(`none` = fuel exhausted; sufficiency of fuel is proved below) and a
ghost log of every handler invocation `(arena index, returned result)`. -/
def traverseNodeF {S : Type} (g : Gmod) (h : GmodHandler S) :
    Nat → TraversalContext S → Nat →
    Option (TraversalContext S × TraversalHandlerResult × List (Nat × TraversalHandlerResult))
  | 0, _, _ => none
  | fuel + 1, ctx, index =>
    if ctx.ids.contains index then
      some (ctx, .Continue, [])
    else
      let parentNodes := ctx.parents.map (fun i => g.nodes.getD i default)
      let node := g.nodes.getD index default
      let hres := h ctx.state parentNodes node
      let ctx1 : TraversalContext S := { ctx with state := hres.1 }
      if hres.2 = .Stop ∨ hres.2 = .SkipSubtree then
        some (ctx1, hres.2, [(index, hres.2)])
      else
        let ctx2 : TraversalContext S :=
          { ctx1 with ids := vecSetInsert ctx1.ids index, parents := ctx1.parents ++ [index] }
        match traverseChildrenLoop (traverseNodeF g h fuel) ctx2 (g.children.getD index []) with
        | none => none
        | some (ctx3, cres, clog) =>
          if cres = .Stop then
            some (ctx3, .Stop, (index, hres.2) :: clog)
          else
            some (ctxPop ctx3, .Continue, (index, hres.2) :: clog)

/-- The children loop at a given fuel level. -/
def traverseChildrenF {S : Type} (g : Gmod) (h : GmodHandler S) (fuel : Nat) :
    TraversalContext S → List Nat →
    Option (TraversalContext S × TraversalHandlerResult × List (Nat × TraversalHandlerResult)) :=
  traverseChildrenLoop (traverseNodeF g h fuel)

/-- The body of `Gmod::traverse_from` after the code lookup: a fresh
context (empty id set, empty parent stack, the caller's initial handler
state) and a `traverse_node` call at the start index.  The fuel
`g.nodes.length + 1` is sufficient for every well-formed graph (proved
below). -/
def traverseFromFull {S : Type} (g : Gmod) (h : GmodHandler S) (s0 : S) (start : Nat) :
    Option (TraversalContext S × TraversalHandlerResult × List (Nat × TraversalHandlerResult)) :=
  traverseNodeF g h (g.nodes.length + 1) ⟨[], [], s0⟩ start

/-- Rust `Gmod::traverse_from` from `sdk/src/gmod.rs`: resolve the start node's
code (the Rust `self.index[..]` panics on an absent code, modelled as
`none`), run `traverse_node`, and report whether the result is
`Continue`. -/
def traverse_from {S : Type} (g : Gmod) (h : GmodHandler S) (s0 : S) (fromNode : GmodNode) :
    Option Bool :=
  match g.index.lookup fromNode.code with
  | none => none
  | some start =>
    match traverseFromFull g h s0 start with
    | none => none
    | some (_, r, _) => some (r = .Continue)

/-- Rust `Gmod::traverse` from `sdk/src/gmod.rs`: `traverse_from` at the node
stored under the root code "VE" (the Rust `self.index["VE"]` panics on an
absent root, modelled as `none`). -/
def Gmod.traverse {S : Type} (g : Gmod) (h : GmodHandler S) (s0 : S) : Option Bool :=
  match g.index.lookup "VE" with
  | none => none
  | some i => traverse_from g h s0 (g.nodes.getD i default)

/-- Modelled from the spec: `Gmod::try_get_node` is called by the binding
layer (`bindgen/src/gmod.rs`) but its definition is not among the
repository's source files.  Spec §4.2: "`get(code)`: returns the node for
an exact code match; a non-throwing variant returns an optional/empty
result instead of failing, for callers that expect codes may be
absent." -/
def try_get_node (g : Gmod) (code : String) : Option GmodNode :=
  match g.index.lookup code with
  | none => none
  | some i => some (g.nodes.getD i default)

/-- Modelled from the spec: the throwing variant `Gmod::get_node` (also
called only from `bindgen/src/gmod.rs`); per spec §4.2 it returns the
exact-match node and fails (panics, modelled as `none`) when the code is
absent. -/
def get_node (g : Gmod) (code : String) : Option GmodNode :=
  match g.index.lookup code with
  | none => none
  | some i => some (g.nodes.getD i default)

/-- Rust `Vis::get_gmod` from `sdk/src/vis.rs`, sequentialised: the moka cache
is a version-keyed association list, the record source
(`sdk_resources::gmod::get_gmod_dto`, which performs I/O on embedded
assets) is a parameter returning either a DTO or an error cause string.
On a cache hit the cached taxonomy is returned unchanged; on a miss the
source is consulted, a source error is mapped to
`VisError::FailedToLoad(cause)` and then immediately `expect`-unwrapped —
a panic, modelled as `none` — and only a successfully built taxonomy is
inserted into the cache. -/
def get_gmod (source : String → Except String GmodDto)
    (cache : List (String × Gmod)) (version : String) :
    Option Gmod × List (String × Gmod) :=
  match cache.lookup version with
  | some g => (some g, cache)
  | none =>
    match source version with
    | .error _ => (none, cache)
    | .ok dto =>
      match Gmod.new dto with
      | none => (none, cache)
      | some g => (some g, cache ++ [(version, g)])

/-! ### Graph-side predicates used by the traversal theorems -/

/-- All child indices stored in the adjacency lists are valid arena
indices.  This holds for every taxonomy built by `Gmod.new` and is the
well-formedness assumption of the traversal theorems. -/
def childIndicesBounded (g : Gmod) : Prop :=
  ∀ l ∈ g.children, ∀ c ∈ l, c < g.nodes.length

instance (g : Gmod) : Decidable (childIndicesBounded g) := by
  unfold childIndicesBounded; infer_instance

/-- The active-path id set is duplicate-free and holds only valid arena
indices; both hold for the empty set a traversal starts from and are
preserved by push/pop. -/
def idsOk (g : Gmod) (ids : List Nat) : Prop :=
  ids.Nodup ∧ ∀ x ∈ ids, x < g.nodes.length

/-- Plain reachability along child edges. -/
inductive Reach (g : Gmod) : Nat → Nat → Prop
  | refl (i : Nat) : Reach g i i
  | step (i c j : Nat) (hc : c ∈ g.children.getD i []) (hp : Reach g c j) :
      Reach g i j

/-- A simple path from `i` to `j` whose vertices all avoid `avoid`; each
step adds the current vertex to the avoided set, so no vertex repeats. -/
inductive SimpleAvoid (g : Gmod) : List Nat → Nat → Nat → Prop
  | refl (avoid : List Nat) (i : Nat) (h : i ∉ avoid) : SimpleAvoid g avoid i i
  | step (avoid : List Nat) (i c j : Nat) (h : i ∉ avoid)
      (hc : c ∈ g.children.getD i []) (hp : SimpleAvoid g (i :: avoid) c j) :
      SimpleAvoid g avoid i j

/-- A simple path of `k` edges starting at `i` and avoiding `avoid`; the
length index drives the recursion-depth bound. -/
inductive SPathLen (g : Gmod) : List Nat → Nat → Nat → Prop
  | refl (avoid : List Nat) (i : Nat) (h : i ∉ avoid) : SPathLen g avoid i 0
  | step (avoid : List Nat) (i c k : Nat) (h : i ∉ avoid)
      (hc : c ∈ g.children.getD i []) (hp : SPathLen g (i :: avoid) c k) :
      SPathLen g avoid i (k + 1)

/-- Reachability from `i` to `j` by a path on which the excluded node `N`
appears at most as the final vertex: the witness that `j` is reachable
not-only-through `N`. -/
inductive ReachAvoiding (g : Gmod) (N : Nat) : Nat → Nat → Prop
  | refl (i : Nat) : ReachAvoiding g N i i
  | step (i c j : Nat) (h : i ≠ N) (hc : c ∈ g.children.getD i [])
      (hp : ReachAvoiding g N c j) : ReachAvoiding g N i j

/-! ### Concrete example taxonomies and handlers, used by the witness and
counterexample theorems -/

def dtoOne : GmodDto :=
  { vis_release := "3-4a"
    items := [⟨"VALUE", "TYPE", "VE", none, none, none, none, none, none⟩]
    relations := [] }

def gOne : Gmod := (Gmod.new dtoOne).getD ⟨"", [], [], [], []⟩

def veNodeOne : GmodNode :=
  nodeOfDto ⟨"VALUE", "TYPE", "VE", none, none, none, none, none, none⟩

/-- A diamond: VE → 300a, VE → 400a, 300a → C101, 400a → C101. -/
def dtoDiamond : GmodDto :=
  { vis_release := "3-4a"
    items := [⟨"VALUE FUNCTION", "TYPE", "VE", none, none, none, none, none, none⟩,
              ⟨"FUNCTION", "TYPE", "300a", none, none, none, none, none, none⟩,
              ⟨"FUNCTION", "TYPE", "400a", none, none, none, none, none, none⟩,
              ⟨"PRODUCT", "TYPE", "C101", none, none, none, none, none, none⟩]
    relations := [("VE", "300a"), ("VE", "400a"), ("300a", "C101"), ("400a", "C101")] }

def gDiamond : Gmod := (Gmod.new dtoDiamond).getD ⟨"", [], [], [], []⟩

/-- A two-node back-edge cycle: A1 → B1 → A1. -/
def dtoCycle : GmodDto :=
  { vis_release := "3-4a"
    items := [⟨"FUNCTION", "TYPE", "A1", none, none, none, none, none, none⟩,
              ⟨"FUNCTION", "TYPE", "B1", none, none, none, none, none, none⟩]
    relations := [("A1", "B1"), ("B1", "A1")] }

def gCycle : Gmod := (Gmod.new dtoCycle).getD ⟨"", [], [], [], []⟩

def contHandler : GmodHandler Unit := fun s _ _ => (s, .Continue)

def skipHandler : GmodHandler Unit := fun s _ _ => (s, .SkipSubtree)

/-- Returns `SkipSubtree` exactly at the node whose code is "300a". -/
def skipAt300 : GmodHandler Unit :=
  fun s _ nd => (s, if nd.code = "300a" then .SkipSubtree else .Continue)

/-- A record source that always fails, with the cause the Rust
`LoadResourceError::ResourceNotFound` displays. -/
def errSource : String → Except String GmodDto :=
  fun _ => .error "resource not found"

/-! ### Helper lemmas -/

variable {S : Type}

lemma vecSetInsert_of_not_mem {l : List Nat} {v : Nat} (h : v ∉ l) :
    vecSetInsert l v = l ++ [v] := by
  simp [vecSetInsert, h]

lemma vecSetRemove_append_self {l : List Nat} {v : Nat} (h : v ∉ l) :
    vecSetRemove (l ++ [v]) v = l := by
  simp only [vecSetRemove, List.filter_append]
  have h1 : l.filter (fun x => x ≠ v) = l := by
    rw [List.filter_eq_self]
    intro a ha
    have h2 : ¬ a = v := fun hav => h (hav ▸ ha)
    simpa using h2
  rw [h1]
  simp

lemma ctxPop_push {ctx : TraversalContext S} {i : Nat} (h : i ∉ ctx.ids) :
    ctxPop { ctx with ids := vecSetInsert ctx.ids i, parents := ctx.parents ++ [i] } =
      ctx := by
  simp only [ctxPop, List.getLastD_concat, List.dropLast_concat,
    vecSetInsert_of_not_mem h, vecSetRemove_append_self h]

lemma nodup_bounded_length_le {l : List Nat} {n : Nat} (hnd : l.Nodup)
    (hb : ∀ x ∈ l, x < n) : l.length ≤ n := by
  have h1 : l.toFinset ⊆ Finset.range n := by
    intro x hx
    simp only [List.mem_toFinset] at hx
    exact Finset.mem_range.mpr (hb x hx)
  have h2 := Finset.card_le_card h1
  rwa [List.toFinset_card_of_nodup hnd, Finset.card_range] at h2

lemma traverseNodeF_zero {g : Gmod} {h : GmodHandler S} {ctx : TraversalContext S} {i : Nat} :
    traverseNodeF g h 0 ctx i = none := by
  rw [traverseNodeF]

lemma traverseNodeF_mem {g : Gmod} {h : GmodHandler S} {fuel : Nat}
    {ctx : TraversalContext S} {i : Nat} (hmem : i ∈ ctx.ids) :
    traverseNodeF g h (fuel + 1) ctx i = some (ctx, .Continue, []) := by
  rw [traverseNodeF]
  simp [hmem]

lemma traverseChildrenF_nil {g : Gmod} {h : GmodHandler S} {fuel : Nat}
    {ctx : TraversalContext S} :
    traverseChildrenF g h fuel ctx [] = some (ctx, .Continue, []) :=
  rfl

/-- The handler invocation `traverse_node` performs at arena index `i` in
context `ctx`: arguments are the active-path ancestors (as nodes) and the
node at `i`.  Proof-layer abbreviation of the expression occurring in the
body of `traverseNodeF`. -/
def handlerAt (g : Gmod) (h : GmodHandler S) (ctx : TraversalContext S) (i : Nat) :
    S × TraversalHandlerResult :=
  h ctx.state (ctx.parents.map fun j => g.nodes.getD j default) (g.nodes.getD i default)

/-- The context after the handler ran at `i` with result `Continue` and
`i` was pushed onto the active path.  Proof-layer abbreviation. -/
def pushedCtx (g : Gmod) (h : GmodHandler S) (ctx : TraversalContext S) (i : Nat) :
    TraversalContext S :=
  { ids := vecSetInsert ctx.ids i, parents := ctx.parents ++ [i],
    state := (handlerAt g h ctx i).1 }

lemma thr_eq_continue {r : TraversalHandlerResult}
    (h1 : r ≠ .Stop) (h2 : r ≠ .SkipSubtree) : r = .Continue := by
  cases r <;> simp_all

lemma traverseNodeF_stop_or_skip {g : Gmod} {h : GmodHandler S} {fuel : Nat}
    {ctx : TraversalContext S} {i : Nat} (hmem : i ∉ ctx.ids)
    (hr : (handlerAt g h ctx i).2 = .Stop ∨ (handlerAt g h ctx i).2 = .SkipSubtree) :
    traverseNodeF g h (fuel + 1) ctx i =
      some ({ ctx with state := (handlerAt g h ctx i).1 }, (handlerAt g h ctx i).2,
        [(i, (handlerAt g h ctx i).2)]) := by
  rw [traverseNodeF]
  have hc : ¬(ctx.ids.contains i = true) := by simpa using hmem
  rw [if_neg hc]
  simp only [handlerAt] at hr ⊢
  rw [if_pos hr]

lemma traverseNodeF_continue_eq {g : Gmod} {h : GmodHandler S} {fuel : Nat}
    {ctx : TraversalContext S} {i : Nat} (hmem : i ∉ ctx.ids)
    (hr : (handlerAt g h ctx i).2 = .Continue) :
    traverseNodeF g h (fuel + 1) ctx i =
      (match traverseChildrenF g h fuel (pushedCtx g h ctx i) (g.children.getD i []) with
       | none => none
       | some (ctx3, cres, clog) =>
         if cres = .Stop then
           some (ctx3, .Stop, (i, TraversalHandlerResult.Continue) :: clog)
         else
           some (ctxPop ctx3, .Continue, (i, TraversalHandlerResult.Continue) :: clog)) := by
  rw [traverseNodeF]
  have hc : ¬(ctx.ids.contains i = true) := by simpa using hmem
  rw [if_neg hc]
  have hcond : ¬((handlerAt g h ctx i).2 = .Stop ∨ (handlerAt g h ctx i).2 = .SkipSubtree) := by
    rw [hr]; simp
  simp only [handlerAt] at hcond hr
  rw [if_neg hcond]
  simp only [pushedCtx, handlerAt, hr, traverseChildrenF]

lemma traverseChildrenF_cons_eq {g : Gmod} {h : GmodHandler S} {fuel : Nat}
    {ctx : TraversalContext S} {c : Nat} {rest : List Nat} :
    traverseChildrenF g h fuel ctx (c :: rest) =
      (match traverseNodeF g h fuel ctx c with
       | none => none
       | some (ctx1, r, log1) =>
         if r = .Stop then some (ctx1, .Stop, log1)
         else
           match traverseChildrenF g h fuel ctx1 rest with
           | none => none
           | some (ctx2, r2, log2) => some (ctx2, r2, log1 ++ log2)) :=
  rfl

/-- Inversion principle for a successful `traverseNodeF` step. -/
lemma traverseNodeF_inv {g : Gmod} {h : GmodHandler S} {fuel : Nat}
    {ctx : TraversalContext S} {i : Nat} {out}
    (heq : traverseNodeF g h (fuel + 1) ctx i = some out) :
    (i ∈ ctx.ids ∧ out = (ctx, .Continue, []))
    ∨ (i ∉ ctx.ids
        ∧ ((handlerAt g h ctx i).2 = .Stop ∨ (handlerAt g h ctx i).2 = .SkipSubtree)
        ∧ out = ({ ctx with state := (handlerAt g h ctx i).1 }, (handlerAt g h ctx i).2,
            [(i, (handlerAt g h ctx i).2)]))
    ∨ (i ∉ ctx.ids ∧ (handlerAt g h ctx i).2 = .Continue
        ∧ ∃ ctx3 cres clog,
            traverseChildrenF g h fuel (pushedCtx g h ctx i) (g.children.getD i [])
              = some (ctx3, cres, clog)
            ∧ ((cres = .Stop ∧ out = (ctx3, .Stop, (i, TraversalHandlerResult.Continue) :: clog))
               ∨ (cres ≠ .Stop
                  ∧ out = (ctxPop ctx3, .Continue,
                      (i, TraversalHandlerResult.Continue) :: clog)))) := by
  by_cases hmem : i ∈ ctx.ids
  · rw [traverseNodeF_mem hmem] at heq
    cases heq
    exact Or.inl ⟨hmem, rfl⟩
  · by_cases hr : (handlerAt g h ctx i).2 = .Stop ∨ (handlerAt g h ctx i).2 = .SkipSubtree
    · rw [traverseNodeF_stop_or_skip hmem hr] at heq
      cases heq
      exact Or.inr (Or.inl ⟨hmem, hr, rfl⟩)
    · push_neg at hr
      have hcont : (handlerAt g h ctx i).2 = .Continue := thr_eq_continue hr.1 hr.2
      rw [traverseNodeF_continue_eq hmem hcont] at heq
      refine Or.inr (Or.inr ⟨hmem, hcont, ?_⟩)
      cases hch : traverseChildrenF g h fuel (pushedCtx g h ctx i) (g.children.getD i []) with
      | none => rw [hch] at heq; exact absurd heq (by simp)
      | some val =>
        obtain ⟨ctx3, cres, clog⟩ := val
        rw [hch] at heq
        have heq2 : (if cres = TraversalHandlerResult.Stop then
              some (ctx3, TraversalHandlerResult.Stop, (i, TraversalHandlerResult.Continue) :: clog)
            else
              some (ctxPop ctx3, TraversalHandlerResult.Continue,
                (i, TraversalHandlerResult.Continue) :: clog)) = some out := heq
        refine ⟨ctx3, cres, clog, rfl, ?_⟩
        by_cases hcs : cres = .Stop
        · rw [if_pos hcs] at heq2
          cases heq2
          exact Or.inl ⟨hcs, rfl⟩
        · rw [if_neg hcs] at heq2
          cases heq2
          exact Or.inr ⟨hcs, rfl⟩

/-- Inversion principle for a successful `traverseChildrenF` step on a
non-empty sibling list. -/
lemma traverseChildrenF_inv {g : Gmod} {h : GmodHandler S} {fuel : Nat}
    {ctx : TraversalContext S} {c : Nat} {rest : List Nat} {out}
    (heq : traverseChildrenF g h fuel ctx (c :: rest) = some out) :
    ∃ ctx1 r log1, traverseNodeF g h fuel ctx c = some (ctx1, r, log1)
      ∧ ((r = .Stop ∧ out = (ctx1, .Stop, log1))
         ∨ (r ≠ .Stop ∧ ∃ ctx2 r2 log2,
              traverseChildrenF g h fuel ctx1 rest = some (ctx2, r2, log2)
              ∧ out = (ctx2, r2, log1 ++ log2))) := by
  rw [traverseChildrenF_cons_eq] at heq
  cases hnc : traverseNodeF g h fuel ctx c with
  | none => rw [hnc] at heq; exact absurd heq (by simp)
  | some val =>
    obtain ⟨ctx1, r, log1⟩ := val
    rw [hnc] at heq
    have heq2 : (if r = TraversalHandlerResult.Stop then
          some (ctx1, TraversalHandlerResult.Stop, log1)
        else
          match traverseChildrenF g h fuel ctx1 rest with
          | none => none
          | some (ctx2, r2, log2) => some (ctx2, r2, log1 ++ log2)) = some out := heq
    refine ⟨ctx1, r, log1, rfl, ?_⟩
    by_cases hr : r = .Stop
    · rw [if_pos hr] at heq2
      cases heq2
      exact Or.inl ⟨hr, rfl⟩
    · rw [if_neg hr] at heq2
      refine Or.inr ⟨hr, ?_⟩
      cases hrest : traverseChildrenF g h fuel ctx1 rest with
      | none => rw [hrest] at heq2; exact absurd heq2 (by simp)
      | some val2 =>
        obtain ⟨ctx2, r2, log2⟩ := val2
        rw [hrest] at heq2
        have heq3 : some (ctx2, r2, log1 ++ log2) = some out := heq2
        cases heq3
        exact ⟨ctx2, r2, log2, rfl, rfl⟩

/-- The ids/parents components of the context are restored by any
traversal call that does not end in `Stop` (push on entry, pop on normal
exit); the one `Stop` return path skips the pop, but it also aborts every
enclosing loop. -/
lemma preserves (g : Gmod) (h : GmodHandler S) : ∀ fuel : Nat,
    (∀ {ctx : TraversalContext S} {i : Nat} {out},
      traverseNodeF g h fuel ctx i = some out → out.2.1 ≠ .Stop →
      out.1.ids = ctx.ids ∧ out.1.parents = ctx.parents)
    ∧ (∀ {cs : List Nat} {ctx : TraversalContext S} {out},
      traverseChildrenF g h fuel ctx cs = some out → out.2.1 ≠ .Stop →
      out.1.ids = ctx.ids ∧ out.1.parents = ctx.parents) := by
  intro fuel
  induction fuel with
  | zero =>
    refine ⟨?_, ?_⟩
    · intro ctx i out heq hne
      rw [traverseNodeF_zero] at heq
      exact absurd heq (by simp)
    · intro cs ctx out heq hne
      cases cs with
      | nil =>
        rw [traverseChildrenF_nil] at heq
        cases heq
        exact ⟨rfl, rfl⟩
      | cons c rest =>
        obtain ⟨ctx1, r, log1, hnc, _⟩ := traverseChildrenF_inv heq
        rw [traverseNodeF_zero] at hnc
        exact absurd hnc (by simp)
  | succ fuel ih =>
    have hnode : ∀ {ctx : TraversalContext S} {i : Nat} {out},
        traverseNodeF g h (fuel + 1) ctx i = some out → out.2.1 ≠ .Stop →
        out.1.ids = ctx.ids ∧ out.1.parents = ctx.parents := by
      intro ctx i out heq hne
      rcases traverseNodeF_inv heq with ⟨hmem, rfl⟩ | ⟨hmem, hr, rfl⟩ |
        ⟨hmem, hr, ctx3, cres, clog, hch, hcase⟩
      · exact ⟨rfl, rfl⟩
      · exact ⟨rfl, rfl⟩
      · rcases hcase with ⟨hcs, rfl⟩ | ⟨hcs, rfl⟩
        · exact absurd rfl hne
        · have hp := ih.2 hch hcs
          have hids : ctx3.ids = vecSetInsert ctx.ids i := by
            simpa [pushedCtx] using hp.1
          have hpar : ctx3.parents = ctx.parents ++ [i] := by
            simpa [pushedCtx] using hp.2
          constructor
          · show (ctxPop ctx3).ids = ctx.ids
            simp only [ctxPop, hids, hpar, List.getLastD_concat,
              vecSetInsert_of_not_mem hmem, vecSetRemove_append_self hmem]
          · show (ctxPop ctx3).parents = ctx.parents
            simp only [ctxPop, hpar, List.dropLast_concat]
    refine ⟨hnode, ?_⟩
    intro cs
    induction cs with
    | nil =>
      intro ctx out heq hne
      rw [traverseChildrenF_nil] at heq
      cases heq
      exact ⟨rfl, rfl⟩
    | cons c rest ihrest =>
      intro ctx out heq hne
      obtain ⟨ctx1, r, log1, hnc, hcase⟩ := traverseChildrenF_inv heq
      rcases hcase with ⟨hr, rfl⟩ | ⟨hr, ctx2, r2, log2, hrest, rfl⟩
      · exact absurd rfl hne
      · have h1 := hnode hnc hr
        have h2 := ihrest hrest (show r2 ≠ TraversalHandlerResult.Stop from hne)
        exact ⟨h2.1.trans h1.1, h2.2.trans h1.2⟩

lemma node_preserves {g : Gmod} {h : GmodHandler S} {fuel : Nat}
    {ctx : TraversalContext S} {i : Nat} {out}
    (heq : traverseNodeF g h fuel ctx i = some out) (hne : out.2.1 ≠ .Stop) :
    out.1.ids = ctx.ids ∧ out.1.parents = ctx.parents :=
  (preserves g h fuel).1 heq hne

lemma children_preserves {g : Gmod} {h : GmodHandler S} {fuel : Nat}
    {cs : List Nat} {ctx : TraversalContext S} {out}
    (heq : traverseChildrenF g h fuel ctx cs = some out) (hne : out.2.1 ≠ .Stop) :
    out.1.ids = ctx.ids ∧ out.1.parents = ctx.parents :=
  (preserves g h fuel).2 heq hne

/-- A sibling loop never produces `SkipSubtree` itself: that value can
only come out of the handler invocation at the top of a node call. -/
lemma children_res_ne_skip {g : Gmod} {h : GmodHandler S} {fuel : Nat} :
    ∀ {cs : List Nat} {ctx : TraversalContext S} {out},
      traverseChildrenF g h fuel ctx cs = some out → out.2.1 ≠ .SkipSubtree := by
  intro cs
  induction cs with
  | nil =>
    intro ctx out heq
    rw [traverseChildrenF_nil] at heq
    cases heq
    simp
  | cons c rest ihrest =>
    intro ctx out heq
    obtain ⟨ctx1, r, log1, hnc, hcase⟩ := traverseChildrenF_inv heq
    rcases hcase with ⟨hr, rfl⟩ | ⟨hr, ctx2, r2, log2, hrest, rfl⟩
    · simp
    · exact show r2 ≠ TraversalHandlerResult.SkipSubtree from ihrest hrest

/-- A traversal call returns `Stop` exactly when some handler invocation
in its log returned `Stop`. -/
lemma stop_iff (g : Gmod) (h : GmodHandler S) : ∀ fuel : Nat,
    (∀ {ctx : TraversalContext S} {i : Nat} {out},
      traverseNodeF g h fuel ctx i = some out →
      (out.2.1 = .Stop ↔ ∃ e ∈ out.2.2, e.2 = .Stop))
    ∧ (∀ {cs : List Nat} {ctx : TraversalContext S} {out},
      traverseChildrenF g h fuel ctx cs = some out →
      (out.2.1 = .Stop ↔ ∃ e ∈ out.2.2, e.2 = .Stop)) := by
  intro fuel
  induction fuel with
  | zero =>
    refine ⟨?_, ?_⟩
    · intro ctx i out heq
      rw [traverseNodeF_zero] at heq
      exact absurd heq (by simp)
    · intro cs ctx out heq
      cases cs with
      | nil =>
        rw [traverseChildrenF_nil] at heq
        cases heq
        simp
      | cons c rest =>
        obtain ⟨ctx1, r, log1, hnc, _⟩ := traverseChildrenF_inv heq
        rw [traverseNodeF_zero] at hnc
        exact absurd hnc (by simp)
  | succ fuel ih =>
    have hnode : ∀ {ctx : TraversalContext S} {i : Nat} {out},
        traverseNodeF g h (fuel + 1) ctx i = some out →
        (out.2.1 = .Stop ↔ ∃ e ∈ out.2.2, e.2 = .Stop) := by
      intro ctx i out heq
      rcases traverseNodeF_inv heq with ⟨hmem, rfl⟩ | ⟨hmem, hr, rfl⟩ |
        ⟨hmem, hr, ctx3, cres, clog, hch, hcase⟩
      · simp
      · simp
      · have hchiff := ih.2 hch
        rcases hcase with ⟨hcs, rfl⟩ | ⟨hcs, rfl⟩
        · constructor
          · intro _
            obtain ⟨e, he, hes⟩ := hchiff.mp hcs
            exact ⟨e, List.mem_cons_of_mem _ he, hes⟩
          · intro _
            rfl
        · constructor
          · intro hcontra
            exact absurd hcontra (by simp)
          · rintro ⟨e, he, hes⟩
            rcases List.mem_cons.mp he with rfl | he2
            · exact absurd hes (by simp)
            · exact absurd (hchiff.mpr ⟨e, he2, hes⟩) hcs
    refine ⟨hnode, ?_⟩
    intro cs
    induction cs with
    | nil =>
      intro ctx out heq
      rw [traverseChildrenF_nil] at heq
      cases heq
      simp
    | cons c rest ihrest =>
      intro ctx out heq
      obtain ⟨ctx1, r, log1, hnc, hcase⟩ := traverseChildrenF_inv heq
      have hniff := hnode hnc
      rcases hcase with ⟨hr, rfl⟩ | ⟨hr, ctx2, r2, log2, hrest, rfl⟩
      · exact ⟨fun _ => hniff.mp hr, fun _ => rfl⟩
      · have hriff := ihrest hrest
        constructor
        · intro h2
          obtain ⟨e, he, hes⟩ := hriff.mp h2
          exact ⟨e, List.mem_append_right _ he, hes⟩
        · rintro ⟨e, he, hes⟩
          rcases List.mem_append.mp he with he1 | he2
          · exact absurd (hniff.mpr ⟨e, he1, hes⟩) hr
          · exact hriff.mpr ⟨e, he2, hes⟩

/-- The log of a node call at an unvisited index starts with the handler
invocation at that index, and the call's result is `SkipSubtree` exactly
when that first invocation returned `SkipSubtree`. -/
lemma node_top_log {g : Gmod} {h : GmodHandler S} {fuel : Nat}
    {ctx : TraversalContext S} {i : Nat} {out} (hmem : i ∉ ctx.ids)
    (heq : traverseNodeF g h (fuel + 1) ctx i = some out) :
    ∃ rest, out.2.2 = (i, (handlerAt g h ctx i).2) :: rest
      ∧ (out.2.1 = .SkipSubtree ↔ (handlerAt g h ctx i).2 = .SkipSubtree) := by
  rcases traverseNodeF_inv heq with ⟨hmem2, rfl⟩ | ⟨_, hr, rfl⟩ |
    ⟨_, hr, ctx3, cres, clog, hch, hcase⟩
  · exact absurd hmem2 hmem
  · exact ⟨[], rfl, Iff.rfl⟩
  · rcases hcase with ⟨hcs, rfl⟩ | ⟨hcs, rfl⟩
    · refine ⟨clog, by rw [hr], ?_⟩
      rw [hr]
      simp
    · refine ⟨clog, by rw [hr], ?_⟩
      rw [hr]

lemma spathlen_not_mem {g : Gmod} {avoid : List Nat} {i k : Nat}
    (hp : SPathLen g avoid i k) : i ∉ avoid := by
  cases hp with
  | refl avoid i h => exact h
  | step avoid i c k h hc hp => exact h

/-- Shrinking the avoided set preserves simple paths. -/
lemma spathlen_mono {g : Gmod} {avoid : List Nat} {i k : Nat}
    (hp : SPathLen g avoid i k) :
    ∀ {avoid2 : List Nat}, (∀ x ∈ avoid2, x ∈ avoid) → SPathLen g avoid2 i k := by
  induction hp with
  | refl avoid i h =>
    intro avoid2 hsub
    exact .refl _ _ (fun hx => h (hsub _ hx))
  | step avoid i c k h hc hp ih =>
    intro avoid2 hsub
    refine .step _ _ _ _ (fun hx => h (hsub _ hx)) hc (ih ?_)
    intro x hx
    rcases List.mem_cons.mp hx with rfl | hx2
    · exact List.mem_cons_self _ _
    · exact List.mem_cons_of_mem _ (hsub _ hx2)

lemma child_lt {g : Gmod} (hb : childIndicesBounded g) {i c : Nat}
    (hc : c ∈ g.children.getD i []) : c < g.nodes.length := by
  by_cases hi : i < g.children.length
  · have hgd : g.children.getD i [] = g.children[i] := by
      simp [List.getD_eq_getElem?_getD, List.getElem?_eq_getElem hi]
    rw [hgd] at hc
    exact hb _ (List.getElem_mem hi) _ hc
  · have hgd : g.children.getD i [] = [] := by
      simp [List.getD_eq_getElem?_getD, List.getElem?_eq_none (Nat.not_lt.mp hi)]
    rw [hgd] at hc
    exact absurd hc (List.not_mem_nil c)

/-- A simple path in a well-formed graph never has more vertices than
there are arena slots: its `k + 1` vertices and the avoided set are
mutually distinct valid indices. -/
lemma spathlen_arena_bound {g : Gmod} (hb : childIndicesBounded g) {avoid : List Nat}
    {i k : Nat} (hp : SPathLen g avoid i k) :
    i < g.nodes.length → avoid.Nodup → (∀ x ∈ avoid, x < g.nodes.length) →
    k + 1 + avoid.length ≤ g.nodes.length := by
  induction hp with
  | refl avoid i h =>
    intro hi hnd hbd
    have hnd2 : (i :: avoid).Nodup := List.nodup_cons.mpr ⟨h, hnd⟩
    have hbd2 : ∀ x ∈ i :: avoid, x < g.nodes.length := by
      intro x hx
      rcases List.mem_cons.mp hx with rfl | hx2
      · exact hi
      · exact hbd x hx2
    have hlen := nodup_bounded_length_le hnd2 hbd2
    simp only [List.length_cons] at hlen
    omega
  | step avoid i c k h hc hp ih =>
    intro hi hnd hbd
    have hc_lt : c < g.nodes.length := child_lt hb hc
    have hnd2 : (i :: avoid).Nodup := List.nodup_cons.mpr ⟨h, hnd⟩
    have hbd2 : ∀ x ∈ i :: avoid, x < g.nodes.length := by
      intro x hx
      rcases List.mem_cons.mp hx with rfl | hx2
      · exact hi
      · exact hbd x hx2
    have := ih hc_lt hnd2 hbd2
    simp only [List.length_cons] at this
    omega

/-- Fuel sufficiency: on a well-formed graph a node call succeeds (never
exhausts its fuel) whenever the fuel exceeds by two the length of the
longest simple path from the start that avoids the current active-path
set.  This is the structural counterpart of the Rust recursion
terminating with stack depth bounded by the longest simple path. -/
lemma fuel_sufficient (g : Gmod) (h : GmodHandler S) (hb : childIndicesBounded g) :
    ∀ fuel : Nat,
    (∀ (L : Nat) (ctx : TraversalContext S) (i : Nat),
      i ∉ ctx.ids → i < g.nodes.length → ctx.ids.Nodup →
      (∀ x ∈ ctx.ids, x < g.nodes.length) →
      (∀ k, SPathLen g ctx.ids i k → k ≤ L) →
      L + 2 ≤ fuel → ∃ out, traverseNodeF g h fuel ctx i = some out)
    ∧ (∀ (cs : List Nat) (ctx : TraversalContext S),
      ctx.ids.Nodup → (∀ x ∈ ctx.ids, x < g.nodes.length) →
      (∀ c ∈ cs, c < g.nodes.length) → 1 ≤ fuel →
      (∀ c ∈ cs, c ∉ ctx.ids →
        ∃ Lc, (∀ k, SPathLen g ctx.ids c k → k ≤ Lc) ∧ Lc + 2 ≤ fuel) →
      ∃ out, traverseChildrenF g h fuel ctx cs = some out) := by
  intro fuel
  induction fuel with
  | zero =>
    refine ⟨?_, ?_⟩
    · intro L ctx i _ _ _ _ _ hL
      omega
    · intro cs ctx _ _ _ hf _
      omega
  | succ fuel ih =>
    have hnode : ∀ (L : Nat) (ctx : TraversalContext S) (i : Nat),
        i ∉ ctx.ids → i < g.nodes.length → ctx.ids.Nodup →
        (∀ x ∈ ctx.ids, x < g.nodes.length) →
        (∀ k, SPathLen g ctx.ids i k → k ≤ L) →
        L + 2 ≤ fuel + 1 → ∃ out, traverseNodeF g h (fuel + 1) ctx i = some out := by
      intro L ctx i hmem hi hnd hbd hL hf
      by_cases hr : (handlerAt g h ctx i).2 = .Stop ∨ (handlerAt g h ctx i).2 = .SkipSubtree
      · exact ⟨_, traverseNodeF_stop_or_skip hmem hr⟩
      · push_neg at hr
        have hcont : (handlerAt g h ctx i).2 = .Continue := thr_eq_continue hr.1 hr.2
        have hins : (pushedCtx g h ctx i).ids = ctx.ids ++ [i] := by
          simp [pushedCtx, vecSetInsert_of_not_mem hmem]
        have hnd2 : (pushedCtx g h ctx i).ids.Nodup := by
          rw [hins]
          have : (i :: ctx.ids).Nodup := List.nodup_cons.mpr ⟨hmem, hnd⟩
          exact List.nodup_append_comm.mp this
        have hbd2 : ∀ x ∈ (pushedCtx g h ctx i).ids, x < g.nodes.length := by
          rw [hins]
          intro x hx
          rcases List.mem_append.mp hx with hx1 | hx2
          · exact hbd x hx1
          · rcases List.mem_singleton.mp hx2 with rfl
            exact hi
        have hcs_lt : ∀ c ∈ g.children.getD i [], c < g.nodes.length :=
          fun c hc => child_lt hb hc
        have hchild : ∀ c ∈ g.children.getD i [], c ∉ (pushedCtx g h ctx i).ids →
            ∃ Lc, (∀ k, SPathLen g (pushedCtx g h ctx i).ids c k → k ≤ Lc) ∧
              Lc + 2 ≤ fuel := by
          intro c hc hcm
          refine ⟨L - 1, ?_, ?_⟩
          · intro k hk
            have hk2 : SPathLen g (i :: ctx.ids) c k := by
              refine spathlen_mono hk ?_
              rw [hins]
              intro x hx
              rcases List.mem_cons.mp hx with rfl | hx2
              · exact List.mem_append_right _ (List.mem_singleton_self _)
              · exact List.mem_append_left _ hx2
            have hstep : SPathLen g ctx.ids i (k + 1) := .step _ _ _ _ hmem hc hk2
            have := hL _ hstep
            omega
          · have hcm2 : c ∉ ctx.ids ++ [i] := by rw [hins] at hcm; exact hcm
            have hcm3 : c ∉ ctx.ids := fun hx => hcm2 (List.mem_append_left _ hx)
            have hrefl : SPathLen g (pushedCtx g h ctx i).ids c 0 := .refl _ _ hcm
            have hstep : SPathLen g ctx.ids i 1 := by
              refine .step _ _ _ _ hmem hc ?_
              refine spathlen_mono hrefl ?_
              rw [hins]
              intro x hx
              rcases List.mem_cons.mp hx with rfl | hx2
              · exact List.mem_append_right _ (List.mem_singleton_self _)
              · exact List.mem_append_left _ hx2
            have := hL _ hstep
            omega
        obtain ⟨out, hout⟩ := ih.2 (g.children.getD i []) (pushedCtx g h ctx i)
          hnd2 hbd2 hcs_lt (by omega) hchild
        obtain ⟨ctx3, cres, clog⟩ := out
        rw [traverseNodeF_continue_eq hmem hcont, hout]
        have hgoal : ∃ o, (if cres = TraversalHandlerResult.Stop then
              some (ctx3, TraversalHandlerResult.Stop,
                (i, TraversalHandlerResult.Continue) :: clog)
            else
              some (ctxPop ctx3, TraversalHandlerResult.Continue,
                (i, TraversalHandlerResult.Continue) :: clog)) = some o := by
          by_cases hcs : cres = .Stop
          · rw [if_pos hcs]
            exact ⟨_, rfl⟩
          · rw [if_neg hcs]
            exact ⟨_, rfl⟩
        exact hgoal
    refine ⟨hnode, ?_⟩
    intro cs
    induction cs with
    | nil =>
      intro ctx _ _ _ _ _
      exact ⟨_, traverseChildrenF_nil⟩
    | cons c rest ihrest =>
      intro ctx hnd hbd hlt hf hLs
      by_cases hcm : c ∈ ctx.ids
      · have hnc : traverseNodeF g h (fuel + 1) ctx c = some (ctx, .Continue, []) :=
          traverseNodeF_mem hcm
        obtain ⟨out2, hout2⟩ := ihrest ctx hnd hbd
          (fun x hx => hlt x (List.mem_cons_of_mem _ hx)) hf
          (fun x hx hxm => hLs x (List.mem_cons_of_mem _ hx) hxm)
        obtain ⟨ctx2, r2, log2⟩ := out2
        rw [traverseChildrenF_cons_eq, hnc]
        have hgoal : ∃ o, (if TraversalHandlerResult.Continue = TraversalHandlerResult.Stop then
              some (ctx, TraversalHandlerResult.Stop, ([] : List (Nat × TraversalHandlerResult)))
            else
              match traverseChildrenF g h (fuel + 1) ctx rest with
              | none => none
              | some (ctx2, r2, log2) => some (ctx2, r2, [] ++ log2)) = some o := by
          rw [if_neg (by simp), hout2]
          exact ⟨_, rfl⟩
        exact hgoal
      · obtain ⟨Lc, hLc, hLcf⟩ := hLs c (List.mem_cons_self _ _) hcm
        obtain ⟨out1, hout1⟩ := hnode Lc ctx c hcm (hlt c (List.mem_cons_self _ _))
          hnd hbd hLc (by omega)
        obtain ⟨ctx1, r, log1⟩ := out1
        rw [traverseChildrenF_cons_eq, hout1]
        have hgoal : ∃ o, (if r = TraversalHandlerResult.Stop then
              some (ctx1, TraversalHandlerResult.Stop, log1)
            else
              match traverseChildrenF g h (fuel + 1) ctx1 rest with
              | none => none
              | some (ctx2, r2, log2) => some (ctx2, r2, log1 ++ log2)) = some o := by
          by_cases hr : r = .Stop
          · rw [if_pos hr]
            exact ⟨_, rfl⟩
          · rw [if_neg hr]
            have hpres := node_preserves hout1 (show r ≠ TraversalHandlerResult.Stop from hr)
            have hids : ctx1.ids = ctx.ids := hpres.1
            obtain ⟨out2, hout2⟩ := ihrest ctx1 (hids ▸ hnd) (fun x hx => hbd x (hids ▸ hx))
              (fun x hx => hlt x (List.mem_cons_of_mem _ hx)) hf
              (fun x hx hxm => by
                rw [hids] at hxm ⊢
                exact hLs x (List.mem_cons_of_mem _ hx) hxm)
            obtain ⟨ctx2, r2, log2⟩ := out2
            rw [hout2]
            exact ⟨_, rfl⟩
        exact hgoal

/-- With the fuel `traverseFromFull` supplies (`nodes.length + 1`), a
traversal from a valid start index on a well-formed graph never exhausts
its fuel. -/
lemma traverseFromFull_isSome {g : Gmod} {h : GmodHandler S} {s0 : S} {start : Nat}
    (hb : childIndicesBounded g) (hs : start < g.nodes.length) :
    ∃ out, traverseFromFull g h s0 start = some out := by
  have hL : ∀ k, SPathLen g ([] : List Nat) start k → k ≤ g.nodes.length - 1 := by
    intro k hk
    have := spathlen_arena_bound hb hk hs List.nodup_nil (by simp)
    omega
  exact (fuel_sufficient g h hb (g.nodes.length + 1)).1 (g.nodes.length - 1)
    ⟨[], [], s0⟩ start (by simp) hs List.nodup_nil (by simp) hL (by omega)

lemma simple_avoid_not_mem {g : Gmod} {avoid : List Nat} {i j : Nat}
    (hp : SimpleAvoid g avoid i j) : i ∉ avoid := by
  cases hp with
  | refl avoid i h => exact h
  | step avoid i c j h hc hp => exact h

lemma simple_avoid_mono {g : Gmod} {avoid : List Nat} {i j : Nat}
    (hp : SimpleAvoid g avoid i j) :
    ∀ {avoid2 : List Nat}, (∀ x ∈ avoid2, x ∈ avoid) → SimpleAvoid g avoid2 i j := by
  induction hp with
  | refl avoid i h =>
    intro avoid2 hsub
    exact .refl _ _ (fun hx => h (hsub _ hx))
  | step avoid i c j h hc hp ih =>
    intro avoid2 hsub
    refine .step _ _ _ _ (fun hx => h (hsub _ hx)) hc (ih ?_)
    intro x hx
    rcases List.mem_cons.mp hx with rfl | hx2
    · exact List.mem_cons_self _ _
    · exact List.mem_cons_of_mem _ (hsub _ hx2)

/-- A simple path from `c` either stays clear of a further vertex `i`, or
`i` lies on it, in which case its suffix is a simple path from `i`. -/
lemma simple_avoid_split {g : Gmod} {avoid : List Nat} {c j : Nat}
    (hp : SimpleAvoid g avoid c j) :
    ∀ i ∉ avoid, SimpleAvoid g (i :: avoid) c j ∨ SimpleAvoid g avoid i j := by
  induction hp with
  | refl avoid c h =>
    intro i hi
    by_cases hic : c = i
    · subst hic
      exact Or.inr (.refl _ _ h)
    · refine Or.inl (.refl _ _ ?_)
      intro hx
      rcases List.mem_cons.mp hx with h1 | h2
      · exact hic h1
      · exact h h2
  | step avoid c c' j h hc hp ih =>
    intro i hi
    by_cases hic : i = c
    · subst hic
      exact Or.inr (.step _ _ _ _ h hc hp)
    · have hi2 : i ∉ c :: avoid := by
        intro hx
        rcases List.mem_cons.mp hx with h1 | h2
        · exact hic h1
        · exact hi h2
      rcases ih i hi2 with h1 | h2
      · refine Or.inl (.step _ _ _ _ ?_ hc (simple_avoid_mono h1 ?_))
        · intro hx
          rcases List.mem_cons.mp hx with h3 | h4
          · exact hic h3.symm
          · exact h h4
        · intro x hx
          rcases List.mem_cons.mp hx with rfl | hx2
          · exact List.mem_cons_of_mem _ (List.mem_cons_self _ _)
          · rcases List.mem_cons.mp hx2 with rfl | hx3
            · exact List.mem_cons_self _ _
            · exact List.mem_cons_of_mem _ (List.mem_cons_of_mem _ hx3)
      · exact Or.inr (simple_avoid_mono h2 (fun x hx => List.mem_cons_of_mem _ hx))

lemma simple_avoid_prepend {g : Gmod} {avoid : List Nat} {i c j : Nat}
    (hi : i ∉ avoid) (hc : c ∈ g.children.getD i [])
    (hp : SimpleAvoid g avoid c j) : SimpleAvoid g avoid i j := by
  rcases simple_avoid_split hp i hi with h1 | h2
  · exact .step _ _ _ _ hi hc h1
  · exact h2

/-- Every reachable node is reachable by a simple path. -/
lemma reach_simple_avoid {g : Gmod} {i j : Nat} (hr : Reach g i j) :
    SimpleAvoid g [] i j := by
  induction hr with
  | refl i => exact .refl _ _ (by simp)
  | step i c j hc hp ih => exact simple_avoid_prepend (by simp) hc ih

/-- Completeness of an all-`Continue` traversal: every handler invocation
returns `Continue`, the call returns `Continue`, and the log covers every
index reachable from the start by a simple path avoiding the active-path
set. -/
lemma complete (g : Gmod) (h : GmodHandler S)
    (hconst : ∀ s ps nd, (h s ps nd).2 = .Continue) : ∀ fuel : Nat,
    (∀ {ctx : TraversalContext S} {i : Nat} {out},
      traverseNodeF g h fuel ctx i = some out →
      out.2.1 = .Continue ∧
      ∀ j, SimpleAvoid g ctx.ids i j → j ∈ out.2.2.map Prod.fst)
    ∧ (∀ {cs : List Nat} {ctx : TraversalContext S} {out},
      traverseChildrenF g h fuel ctx cs = some out →
      out.2.1 = .Continue ∧
      ∀ c ∈ cs, ∀ j, SimpleAvoid g ctx.ids c j → j ∈ out.2.2.map Prod.fst) := by
  intro fuel
  induction fuel with
  | zero =>
    refine ⟨?_, ?_⟩
    · intro ctx i out heq
      rw [traverseNodeF_zero] at heq
      exact absurd heq (by simp)
    · intro cs ctx out heq
      cases cs with
      | nil =>
        rw [traverseChildrenF_nil] at heq
        cases heq
        exact ⟨rfl, by simp⟩
      | cons c rest =>
        obtain ⟨ctx1, r, log1, hnc, _⟩ := traverseChildrenF_inv heq
        rw [traverseNodeF_zero] at hnc
        exact absurd hnc (by simp)
  | succ fuel ih =>
    have hnode : ∀ {ctx : TraversalContext S} {i : Nat} {out},
        traverseNodeF g h (fuel + 1) ctx i = some out →
        out.2.1 = .Continue ∧
        ∀ j, SimpleAvoid g ctx.ids i j → j ∈ out.2.2.map Prod.fst := by
      intro ctx i out heq
      rcases traverseNodeF_inv heq with ⟨hmem, rfl⟩ | ⟨hmem, hr, rfl⟩ |
        ⟨hmem, hr, ctx3, cres, clog, hch, hcase⟩
      · refine ⟨rfl, ?_⟩
        intro j hj
        exact absurd hmem (simple_avoid_not_mem hj)
      · have := hconst ctx.state (ctx.parents.map fun j => g.nodes.getD j default)
          (g.nodes.getD i default)
        rcases hr with hr | hr <;> rw [handlerAt] at hr <;> rw [this] at hr <;>
          exact absurd hr (by simp)
      · have hchres := ih.2 hch
        rcases hcase with ⟨hcs, rfl⟩ | ⟨hcs, rfl⟩
        · exact absurd hchres.1 (by rw [hcs]; simp)
        · refine ⟨rfl, ?_⟩
          intro j hj
          cases hj with
          | refl avoid i h2 =>
            simp
          | step avoid i c j h2 hc hp =>
            have hins : (pushedCtx g h ctx i).ids = ctx.ids ++ [i] := by
              simp [pushedCtx, vecSetInsert_of_not_mem hmem]
            have hp2 : SimpleAvoid g (pushedCtx g h ctx i).ids c j := by
              refine simple_avoid_mono hp ?_
              rw [hins]
              intro x hx
              rcases List.mem_append.mp hx with hx1 | hx2
              · exact List.mem_cons_of_mem _ hx1
              · rcases List.mem_singleton.mp hx2 with rfl
                exact List.mem_cons_self _ _
            have := hchres.2 c hc j hp2
            simp only [List.map_cons, List.mem_cons]
            exact Or.inr (by simpa using this)
    refine ⟨hnode, ?_⟩
    intro cs
    induction cs with
    | nil =>
      intro ctx out heq
      rw [traverseChildrenF_nil] at heq
      cases heq
      exact ⟨rfl, by simp⟩
    | cons c rest ihrest =>
      intro ctx out heq
      obtain ⟨ctx1, r, log1, hnc, hcase⟩ := traverseChildrenF_inv heq
      have hn := hnode hnc
      rcases hcase with ⟨hr, rfl⟩ | ⟨hr, ctx2, r2, log2, hrest, rfl⟩
      · exact absurd hn.1 (by rw [hr]; simp)
      · have hpres := node_preserves hnc (show r ≠ TraversalHandlerResult.Stop from hr)
        have hids : ctx1.ids = ctx.ids := hpres.1
        have hrr := ihrest hrest
        refine ⟨hrr.1, ?_⟩
        intro c' hc' j hj
        simp only [List.map_append, List.mem_append]
        rcases List.mem_cons.mp hc' with rfl | hc2
        · exact Or.inl (hn.2 j hj)
        · refine Or.inr ?_
          have := hrr.2 c' hc2 j (by rw [hids]; exact hj)
          simpa using this

/-- With a handler that answers `SkipSubtree` whenever it is shown the
node of index `N`, every index in the traversal log is reachable from the
call's start index by a path on which `N` appears at most as the final
vertex. -/
lemma avoid_skip (g : Gmod) (h : GmodHandler S) {N : Nat}
    (hskip : ∀ s ps, (h s ps (g.nodes.getD N default)).2 = .SkipSubtree) : ∀ fuel : Nat,
    (∀ {ctx : TraversalContext S} {i : Nat} {out},
      traverseNodeF g h fuel ctx i = some out →
      ∀ e ∈ out.2.2, ReachAvoiding g N i e.1)
    ∧ (∀ {cs : List Nat} {ctx : TraversalContext S} {out},
      traverseChildrenF g h fuel ctx cs = some out →
      ∀ e ∈ out.2.2, ∃ c ∈ cs, ReachAvoiding g N c e.1) := by
  intro fuel
  induction fuel with
  | zero =>
    refine ⟨?_, ?_⟩
    · intro ctx i out heq
      rw [traverseNodeF_zero] at heq
      exact absurd heq (by simp)
    · intro cs ctx out heq
      cases cs with
      | nil =>
        rw [traverseChildrenF_nil] at heq
        cases heq
        simp
      | cons c rest =>
        obtain ⟨ctx1, r, log1, hnc, _⟩ := traverseChildrenF_inv heq
        rw [traverseNodeF_zero] at hnc
        exact absurd hnc (by simp)
  | succ fuel ih =>
    have hnode : ∀ {ctx : TraversalContext S} {i : Nat} {out},
        traverseNodeF g h (fuel + 1) ctx i = some out →
        ∀ e ∈ out.2.2, ReachAvoiding g N i e.1 := by
      intro ctx i out heq
      rcases traverseNodeF_inv heq with ⟨hmem, rfl⟩ | ⟨hmem, hr, rfl⟩ |
        ⟨hmem, hr, ctx3, cres, clog, hch, hcase⟩
      · simp
      · intro e he
        rcases List.mem_singleton.mp he with rfl
        exact .refl _
      · have hiN : i ≠ N := by
          intro hiN
          subst hiN
          rw [handlerAt, hskip] at hr
          exact absurd hr (by simp)
        have hchr := ih.2 hch
        have hcover : ∀ e ∈ clog, ReachAvoiding g N i e.1 := by
          intro e he
          obtain ⟨c, hc, hra⟩ := hchr e he
          exact .step _ _ _ hiN hc hra
        rcases hcase with ⟨hcs, rfl⟩ | ⟨hcs, rfl⟩ <;>
        · intro e he
          rcases List.mem_cons.mp he with rfl | he2
          · exact .refl _
          · exact hcover e he2
    refine ⟨hnode, ?_⟩
    intro cs
    induction cs with
    | nil =>
      intro ctx out heq
      rw [traverseChildrenF_nil] at heq
      cases heq
      simp
    | cons c rest ihrest =>
      intro ctx out heq
      obtain ⟨ctx1, r, log1, hnc, hcase⟩ := traverseChildrenF_inv heq
      have hn := hnode hnc
      rcases hcase with ⟨hr, rfl⟩ | ⟨hr, ctx2, r2, log2, hrest, rfl⟩
      · intro e he
        exact ⟨c, List.mem_cons_self _ _, hn e he⟩
      · intro e he
        rcases List.mem_append.mp he with he1 | he2
        · exact ⟨c, List.mem_cons_self _ _, hn e he1⟩
        · obtain ⟨c', hc', hra⟩ := ihrest hrest e he2
          exact ⟨c', List.mem_cons_of_mem _ hc', hra⟩

lemma traverse_from_eq {g : Gmod} {h : GmodHandler S} {s0 : S} {fromNode : GmodNode}
    {start : Nat} (hstart : g.index.lookup fromNode.code = some start) :
    traverse_from g h s0 fromNode =
      (match traverseFromFull g h s0 start with
       | none => none
       | some (_, r, _) => some (decide (r = TraversalHandlerResult.Continue))) := by
  rw [traverse_from, hstart]

lemma traverse_eq {g : Gmod} {h : GmodHandler S} {s0 : S} {r : Nat}
    (hroot : g.index.lookup "VE" = some r) :
    Gmod.traverse g h s0 = traverse_from g h s0 (g.nodes.getD r default) := by
  rw [Gmod.traverse, hroot]

/-! ### Construction lemmas (`Gmod.new`) -/

lemma getD_set_self_list {ls : List (List Nat)} {p : Nat} {x : List Nat}
    (hp : p < ls.length) : (ls.set p x).getD p [] = x := by
  rw [List.getD_eq_getElem?_getD, List.getElem?_set_self (by simpa using hp)]
  rfl

lemma getD_set_ne_list {ls : List (List Nat)} {p q : Nat} {x : List Nat}
    (hne : p ≠ q) : (ls.set p x).getD q [] = ls.getD q [] := by
  rw [List.getD_eq_getElem?_getD, List.getElem?_set_ne hne,
    ← List.getD_eq_getElem?_getD]

lemma getD_replicate_nil {n p : Nat} :
    (List.replicate n ([] : List Nat)).getD p [] = [] := by
  rw [List.getD_eq_getElem?_getD, List.getElem?_replicate]
  split <;> rfl

lemma count_append_single (l : List Nat) (x y : Nat) :
    (l ++ [x]).count y = l.count y + (if x = y then 1 else 0) := by
  rw [List.count_append]
  by_cases hxy : x = y
  · subst hxy
    simp
  · simp [List.count_cons, hxy, Ne.symm hxy]

lemma lookup_lt {m : List (String × Nat)} {n : Nat} (hm : ∀ p ∈ m, p.2 < n) :
    ∀ {k : String} {v : Nat}, m.lookup k = some v → v < n := by
  induction m with
  | nil =>
    intro k v hl
    cases hl
  | cons a rest ih =>
    intro k v hl
    obtain ⟨k1, v1⟩ := a
    simp only [List.lookup] at hl
    by_cases hk : k == k1
    · rw [hk] at hl
      cases hl
      exact hm (k1, v) (List.mem_cons_self _ _)
    · rw [Bool.not_eq_true] at hk
      rw [hk] at hl
      exact ih (fun p hp => hm p (List.mem_cons_of_mem _ hp)) hl

lemma lookup_map_overwrite_self {k : String} {v : Nat} :
    ∀ m : List (String × Nat), (m.lookup k).isSome →
    (m.map (fun p => if p.1 = k then (p.1, v) else p)).lookup k = some v := by
  intro m
  induction m with
  | nil =>
    intro hsome
    simp at hsome
  | cons a rest ih =>
    intro hsome
    obtain ⟨k1, v1⟩ := a
    by_cases hk : k1 = k
    · subst hk
      rw [List.map_cons,
        show (if (k1, v1).1 = k1 then ((k1, v1).1, v) else (k1, v1)) = (k1, v) from by simp,
        List.lookup_cons, show (k1 == k1) = true from by simp]
    · rw [List.map_cons,
        show (if (k1, v1).1 = k then ((k1, v1).1, v) else (k1, v1)) = (k1, v1) from
          by simp [hk],
        List.lookup_cons, show (k == k1) = false from by simp [Ne.symm hk]]
      apply ih
      rw [List.lookup_cons, show (k == k1) = false from by simp [Ne.symm hk]] at hsome
      exact hsome

lemma lookup_map_overwrite_ne {k k' : String} {v : Nat} (hne : k' ≠ k) :
    ∀ m : List (String × Nat),
    (m.map (fun p => if p.1 = k then (p.1, v) else p)).lookup k' = m.lookup k' := by
  intro m
  induction m with
  | nil => rfl
  | cons a rest ih =>
    obtain ⟨k1, v1⟩ := a
    by_cases hk : k1 = k
    · subst hk
      rw [List.map_cons,
        show (if (k1, v1).1 = k1 then ((k1, v1).1, v) else (k1, v1)) = (k1, v) from by simp,
        List.lookup_cons, List.lookup_cons,
        show (k' == k1) = false from by simp [hne]]
      exact ih
    · rw [List.map_cons,
        show (if (k1, v1).1 = k then ((k1, v1).1, v) else (k1, v1)) = (k1, v1) from
          by simp [hk],
        List.lookup_cons, List.lookup_cons]
      cases hb : (k' == k1)
      · exact ih
      · rfl

lemma lookup_append_single_self (m : List (String × Nat)) (k : String) (v : Nat)
    (hnone : m.lookup k = none) : (m ++ [(k, v)]).lookup k = some v := by
  rw [List.lookup_append, hnone]
  simp

lemma lookup_append_single_ne {m : List (String × Nat)} {k k' : String} {v : Nat}
    (hne : k' ≠ k) : (m ++ [(k, v)]).lookup k' = m.lookup k' := by
  rw [List.lookup_append]
  have h1 : ([(k, v)] : List (String × Nat)).lookup k' = none := by
    rw [List.lookup_cons, show (k' == k) = false from by simp [hne]]
    rfl
  rw [h1]
  simp

lemma lookup_insertIndex_self (m : List (String × Nat)) (k : String) (v : Nat) :
    (insertIndex m k v).lookup k = some v := by
  unfold insertIndex
  split
  · rename_i hsome
    exact lookup_map_overwrite_self m hsome
  · rename_i hnone
    exact lookup_append_single_self m k v (Option.not_isSome_iff_eq_none.mp hnone)

lemma lookup_insertIndex_ne {m : List (String × Nat)} {k k' : String} {v : Nat}
    (hne : k' ≠ k) : (insertIndex m k v).lookup k' = m.lookup k' := by
  unfold insertIndex
  split
  · exact lookup_map_overwrite_ne hne m
  · exact lookup_append_single_ne hne

lemma insertIndex_mem {m : List (String × Nat)} {k : String} {v : Nat}
    {p : String × Nat} (hp : p ∈ insertIndex m k v) : p ∈ m ∨ p.2 = v := by
  unfold insertIndex at hp
  split at hp
  · obtain ⟨q, hq, hqe⟩ := List.mem_map.mp hp
    by_cases hqk : q.1 = k
    · rw [if_pos hqk] at hqe
      right
      rw [← hqe]
    · rw [if_neg hqk] at hqe
      left
      exact hqe ▸ hq
  · rcases List.mem_append.mp hp with h1 | h2
    · exact Or.inl h1
    · right
      rcases List.mem_singleton.mp h2 with rfl
      rfl

lemma buildIndex_values_lt : ∀ (items : List GmodNodeDto) (i0 : Nat)
    (m : List (String × Nat)), (∀ p ∈ m, p.2 < i0) →
    ∀ p ∈ buildIndex items i0 m, p.2 < i0 + items.length := by
  intro items
  induction items with
  | nil =>
    intro i0 m hm p hp
    rw [buildIndex] at hp
    simpa using hm p hp
  | cons it rest ih =>
    intro i0 m hm p hp
    rw [buildIndex] at hp
    have hm2 : ∀ q ∈ insertIndex m it.code i0, q.2 < i0 + 1 := by
      intro q hq
      rcases insertIndex_mem hq with h1 | h2
      · exact Nat.lt_succ_of_lt (hm q h1)
      · rw [h2]
        exact Nat.lt_succ_self _
    have h3 := ih (i0 + 1) _ hm2 p hp
    simp only [List.length_cons]
    omega

/-- Lookup in the built code index satisfies any property `P` that holds
of every (code, arena index) assignment the construction makes. -/
lemma buildIndex_lookup_prop (P : String → Nat → Prop) :
    ∀ (items : List GmodNodeDto) (i0 : Nat) (m : List (String × Nat)),
    (∀ k v, m.lookup k = some v → P k v) →
    (∀ j, j < items.length → P (items.getD j default).code (i0 + j)) →
    ∀ k v, (buildIndex items i0 m).lookup k = some v → P k v := by
  intro items
  induction items with
  | nil =>
    intro i0 m hm _ k v hl
    rw [buildIndex] at hl
    exact hm k v hl
  | cons it rest ih =>
    intro i0 m hm hitems k v hl
    rw [buildIndex] at hl
    refine ih (i0 + 1) _ ?_ ?_ k v hl
    · intro k2 v2 h2
      by_cases hk : k2 = it.code
      · subst hk
        rw [lookup_insertIndex_self] at h2
        cases h2
        have h4 := hitems 0 (by simp)
        simpa using h4
      · rw [lookup_insertIndex_ne hk] at h2
        exact hm k2 v2 h2
    · intro j hj
      have h4 := hitems (j + 1) (by simpa using Nat.succ_lt_succ hj)
      rw [List.getD_cons_succ] at h4
      have : i0 + (j + 1) = i0 + 1 + j := by omega
      rwa [this] at h4

/-- One `addRelation` step preserves the lengths of both adjacency arrays
and the count-level adjacency symmetry. -/
lemma addRelation_sym {index : List (String × Nat)} {n : Nat}
    (hidx : ∀ p ∈ index, p.2 < n)
    {st st1 : List (List Nat) × List (List Nat)} {rel : String × String}
    (h1 : st.1.length = n) (h2 : st.2.length = n)
    (h3 : ∀ p c, (st.1.getD p []).count c = (st.2.getD c []).count p)
    (heq : addRelation index st rel = some st1) :
    st1.1.length = n ∧ st1.2.length = n ∧
    ∀ p c, (st1.1.getD p []).count c = (st1.2.getD c []).count p := by
  unfold addRelation at heq
  cases hp : index.lookup rel.1 with
  | none => rw [hp] at heq; cases heq
  | some p =>
    cases hc : index.lookup rel.2 with
    | none => rw [hp, hc] at heq; cases heq
    | some c =>
      rw [hp, hc] at heq
      have heq2 : some (st.1.set p (st.1.getD p [] ++ [c]),
          st.2.set c (st.2.getD c [] ++ [p])) = some st1 := heq
      cases heq2
      have hpn : p < n := lookup_lt hidx hp
      have hcn : c < n := lookup_lt hidx hc
      refine ⟨by simp [h1], by simp [h2], ?_⟩
      intro p' c'
      by_cases hpp : p' = p
      · subst hpp
        rw [getD_set_self_list (h1 ▸ hpn)]
        by_cases hcc : c' = c
        · subst hcc
          rw [getD_set_self_list (h2 ▸ hcn)]
          rw [count_append_single, count_append_single, if_pos rfl, if_pos rfl,
            h3 p' c']
        · rw [getD_set_ne_list (fun hx => hcc hx.symm)]
          rw [count_append_single, if_neg (fun hx => hcc hx.symm), Nat.add_zero]
          exact h3 p' c'
      · rw [getD_set_ne_list (fun hx => hpp hx.symm)]
        by_cases hcc : c' = c
        · subst hcc
          rw [getD_set_self_list (h2 ▸ hcn)]
          rw [count_append_single, if_neg (fun hx => hpp hx.symm), Nat.add_zero]
          exact h3 p' c'
        · rw [getD_set_ne_list (fun hx => hcc hx.symm)]
          exact h3 p' c'

lemma addRelations_sym {index : List (String × Nat)} {n : Nat}
    (hidx : ∀ p ∈ index, p.2 < n) :
    ∀ (rels : List (String × String)) (st st2 : List (List Nat) × List (List Nat)),
    st.1.length = n → st.2.length = n →
    (∀ p c, (st.1.getD p []).count c = (st.2.getD c []).count p) →
    addRelations index rels st = some st2 →
    st2.1.length = n ∧ st2.2.length = n ∧
    ∀ p c, (st2.1.getD p []).count c = (st2.2.getD c []).count p := by
  intro rels
  induction rels with
  | nil =>
    intro st st2 h1 h2 h3 heq
    rw [addRelations] at heq
    cases heq
    exact ⟨h1, h2, h3⟩
  | cons rel rest ih =>
    intro st st2 h1 h2 h3 heq
    rw [addRelations] at heq
    cases hst1 : addRelation index st rel with
    | none => rw [hst1] at heq; cases heq
    | some st1 =>
      rw [hst1] at heq
      have heq2 : addRelations index rest st1 = some st2 := heq
      obtain ⟨g1, g2, g3⟩ := addRelation_sym hidx h1 h2 h3 hst1
      exact ih st1 st2 g1 g2 g3 heq2

/-- Unpacking a successful `Gmod.new`. -/
lemma gmod_new_inv {dto : GmodDto} {g : Gmod} (hg : Gmod.new dto = some g) :
    ∃ st, addRelations (buildIndex dto.items 0 []) dto.relations
        (List.replicate dto.items.length [], List.replicate dto.items.length [])
        = some st
      ∧ g.index = buildIndex dto.items 0 []
      ∧ g.children = st.1 ∧ g.parents = st.2
      ∧ g.nodes = dto.items.map nodeOfDto
      ∧ g.version = dto.vis_release := by
  simp only [Gmod.new] at hg
  cases hst : addRelations (buildIndex dto.items 0 []) dto.relations
      (List.replicate dto.items.length [], List.replicate dto.items.length []) with
  | none => rw [hst] at hg; cases hg
  | some st =>
    rw [hst] at hg
    have hg2 : some (⟨dto.vis_release, buildIndex dto.items 0 [], st.1, st.2,
        dto.items.map nodeOfDto⟩ : Gmod) = some g := hg
    cases hg2
    exact ⟨st, rfl, rfl, rfl, rfl, rfl, rfl⟩

/-- Every lookup in a constructed taxonomy's index yields a valid arena
index whose node carries exactly the looked-up code. -/
lemma gmod_new_lookup_code {dto : GmodDto} {g : Gmod} (hg : Gmod.new dto = some g) :
    ∀ {k : String} {v : Nat}, g.index.lookup k = some v →
      v < g.nodes.length ∧ (g.nodes.getD v default).code = k := by
  obtain ⟨st, hst, hidx, hch, hpar, hnodes, hver⟩ := gmod_new_inv hg
  intro k v hl
  rw [hidx] at hl
  have hP := buildIndex_lookup_prop
    (fun k v => v < dto.items.length ∧ (dto.items.getD v default).code = k)
    dto.items 0 []
    (by intro k2 v2 h2; cases h2)
    (by
      intro j hj
      constructor
      · simpa using hj
      · rw [Nat.zero_add])
    k v hl
  constructor
  · rw [hnodes, List.length_map]
    exact hP.1
  · rw [hnodes]
    have hv : v < dto.items.length := hP.1
    rw [List.getD_eq_getElem?_getD, List.getElem?_map, List.getElem?_eq_getElem hv]
    have hgd : dto.items[v] = dto.items.getD v default := by
      rw [List.getD_eq_getElem?_getD, List.getElem?_eq_getElem hv]
      rfl
    show (nodeOfDto dto.items[v]).code = k
    rw [hgd]
    exact hP.2

/-! ### Claim theorems -/

/-- C10: `GmodNode::is_mappable` is `todo!()` — for every node value the
call panics unconditionally (modelled: it produces no boolean) and never
returns a boolean for any input. -/
theorem C10_is_mappable_panics :
    ∀ nd : GmodNode, is_mappable nd = none ∧ ∀ b : Bool, is_mappable nd ≠ some b :=
  fun _ => ⟨rfl, fun _ hcontra => by cases hcontra⟩

/-- C6: for a node of the taxonomy (its code resolves to arena index
`idx`), `get_product_type_for` returns `some c` iff the node has exactly
one child, whose node is `c`, the node's category contains "FUNCTION",
and `c` has category exactly "PRODUCT" and node type exactly "TYPE";
`get_product_selection_for` is the same except that `c`'s category must
contain "PRODUCT" and its node type must equal "SELECTION".  In all other
cases both return `none`. -/
theorem C6_product_type_selection_characterization (g : Gmod) (nd : GmodNode) (idx : Nat)
    (hidx : g.index.lookup nd.code = some idx) :
    (∀ c, get_product_type_for g nd = some c ↔
      ∃ ci, g.children.getD idx [] = [ci]
        ∧ strContains nd.metadata.category "FUNCTION"
        ∧ g.nodes.getD ci default = c
        ∧ c.metadata.category = "PRODUCT" ∧ c.metadata.node_type = "TYPE")
    ∧ (∀ c, get_product_selection_for g nd = some c ↔
      ∃ ci, g.children.getD idx [] = [ci]
        ∧ strContains nd.metadata.category "FUNCTION"
        ∧ g.nodes.getD ci default = c
        ∧ strContains c.metadata.category "PRODUCT" ∧ c.metadata.node_type = "SELECTION") := by
  constructor
  · intro c
    simp only [get_product_type_for, hidx]
    rcases hcs : g.children.getD idx [] with _ | ⟨c0, rest⟩
    · simp [hcs]
    · rcases rest with _ | ⟨c1, rest2⟩
      · simp only [List.getD_cons_zero]
        by_cases hf : strContains nd.metadata.category "FUNCTION"
        · by_cases hcat : (g.nodes.getD c0 default).metadata.category = "PRODUCT"
          · by_cases hty : (g.nodes.getD c0 default).metadata.node_type = "TYPE"
            · rw [if_neg (by simp), if_neg (not_not.mpr hf),
                if_neg (by push_neg; exact ⟨hcat, hty⟩)]
              constructor
              · intro h1
                have h2 : g.nodes.getD c0 default = c := Option.some.inj h1
                exact ⟨c0, rfl, hf, h2, h2 ▸ hcat, h2 ▸ hty⟩
              · rintro ⟨ci, hci, -, heq, -, -⟩
                have hcic : ci = c0 := by simpa using hci.symm
                subst hcic
                rw [heq]
            · rw [if_neg (by simp), if_neg (not_not.mpr hf), if_pos (Or.inr hty)]
              constructor
              · intro h1
                cases h1
              · rintro ⟨ci, hci, -, heq, -, hty2⟩
                have hcic : ci = c0 := by simpa using hci.symm
                subst hcic
                exact absurd (heq ▸ hty2) hty
          · rw [if_neg (by simp), if_neg (not_not.mpr hf), if_pos (Or.inl hcat)]
            constructor
            · intro h1
              cases h1
            · rintro ⟨ci, hci, -, heq, hcat2, -⟩
              have hcic : ci = c0 := by simpa using hci.symm
              subst hcic
              exact absurd (heq ▸ hcat2) hcat
        · rw [if_neg (by simp), if_pos hf]
          constructor
          · intro h1
            cases h1
          · rintro ⟨ci, hci, hf2, -, -, -⟩
            exact absurd hf2 hf
      · rw [if_pos (by simp)]
        constructor
        · intro h1
          cases h1
        · rintro ⟨ci, hci, -, -, -, -⟩
          simp at hci
  · intro c
    simp only [get_product_selection_for, hidx]
    rcases hcs : g.children.getD idx [] with _ | ⟨c0, rest⟩
    · simp [hcs]
    · rcases rest with _ | ⟨c1, rest2⟩
      · simp only [List.getD_cons_zero]
        by_cases hf : strContains nd.metadata.category "FUNCTION"
        · by_cases hcat : strContains (g.nodes.getD c0 default).metadata.category "PRODUCT"
          · by_cases hty : (g.nodes.getD c0 default).metadata.node_type = "SELECTION"
            · rw [if_neg (by simp), if_neg (not_not.mpr hf),
                if_neg (by push_neg; exact ⟨hcat, hty⟩)]
              constructor
              · intro h1
                have h2 : g.nodes.getD c0 default = c := Option.some.inj h1
                exact ⟨c0, rfl, hf, h2, h2 ▸ hcat, h2 ▸ hty⟩
              · rintro ⟨ci, hci, -, heq, -, -⟩
                have hcic : ci = c0 := by simpa using hci.symm
                subst hcic
                rw [heq]
            · rw [if_neg (by simp), if_neg (not_not.mpr hf), if_pos (Or.inr hty)]
              constructor
              · intro h1
                cases h1
              · rintro ⟨ci, hci, -, heq, -, hty2⟩
                have hcic : ci = c0 := by simpa using hci.symm
                subst hcic
                exact absurd (heq ▸ hty2) hty
          · rw [if_neg (by simp), if_neg (not_not.mpr hf), if_pos (Or.inl hcat)]
            constructor
            · intro h1
              cases h1
            · rintro ⟨ci, hci, -, heq, hcat2, -⟩
              have hcic : ci = c0 := by simpa using hci.symm
              subst hcic
              exact absurd (heq ▸ hcat2) hcat
        · rw [if_neg (by simp), if_pos hf]
          constructor
          · intro h1
            cases h1
          · rintro ⟨ci, hci, hf2, -, -, -⟩
            exact absurd hf2 hf
      · rw [if_pos (by simp)]
        constructor
        · intro h1
          cases h1
        · rintro ⟨ci, hci, -, -, -, -⟩
          simp at hci

theorem C6_product_type_selection_characterization_witness :
    gDiamond.index.lookup (nodeOfDto
        ⟨"FUNCTION", "TYPE", "300a", none, none, none, none, none, none⟩).code = some 1
    ∧ ((∀ c, get_product_type_for gDiamond (nodeOfDto
          ⟨"FUNCTION", "TYPE", "300a", none, none, none, none, none, none⟩) = some c ↔
        ∃ ci, gDiamond.children.getD 1 [] = [ci]
          ∧ strContains (nodeOfDto
              ⟨"FUNCTION", "TYPE", "300a", none, none, none, none, none,
                none⟩).metadata.category "FUNCTION"
          ∧ gDiamond.nodes.getD ci default = c
          ∧ c.metadata.category = "PRODUCT" ∧ c.metadata.node_type = "TYPE")
      ∧ (∀ c, get_product_selection_for gDiamond (nodeOfDto
          ⟨"FUNCTION", "TYPE", "300a", none, none, none, none, none, none⟩) = some c ↔
        ∃ ci, gDiamond.children.getD 1 [] = [ci]
          ∧ strContains (nodeOfDto
              ⟨"FUNCTION", "TYPE", "300a", none, none, none, none, none,
                none⟩).metadata.category "FUNCTION"
          ∧ gDiamond.nodes.getD ci default = c
          ∧ strContains c.metadata.category "PRODUCT"
          ∧ c.metadata.node_type = "SELECTION")) :=
  ⟨by decide, C6_product_type_selection_characterization gDiamond
    (nodeOfDto ⟨"FUNCTION", "TYPE", "300a", none, none, none, none, none, none⟩) 1
    (by decide)⟩

/-- C1 counterexample: on the one-node taxonomy, a handler that returns
`SkipSubtree` everywhere is invoked exactly once and never returns
`Stop` (the full log is `[(0, SkipSubtree)]`), yet `traverse_from`
returns `false`: the Rust code propagates a top-level `SkipSubtree`
result to the `result == Continue` comparison. -/
theorem C1_counterexample :
    traverseFromFull gOne skipHandler () 0 =
      some (⟨[], [], ()⟩, TraversalHandlerResult.SkipSubtree,
        [(0, TraversalHandlerResult.SkipSubtree)])
    ∧ traverse_from gOne skipHandler () veNodeOne = some false :=
  ⟨rfl, rfl⟩

/-- C1 (amended): `traverse_from` (and hence `traverse`) returns true iff
no handler invocation during the call returned `Stop` AND the handler
invocation at the start node did not return `SkipSubtree`; a call whose
handler only returns `Continue` or `SkipSubtree` with a non-`SkipSubtree`
answer at the start node returns true. -/
theorem C1_traverse_return_value (g : Gmod) (h : GmodHandler S) (s0 : S)
    (fromNode : GmodNode) (start : Nat)
    (hstart : g.index.lookup fromNode.code = some start)
    (hb : childIndicesBounded g) (hs : start < g.nodes.length) :
    ∃ out, traverseFromFull g h s0 start = some out
      ∧ traverse_from g h s0 fromNode = some (decide (out.2.1 = TraversalHandlerResult.Continue))
      ∧ (traverse_from g h s0 fromNode = some true ↔
          (∀ e ∈ out.2.2, e.2 ≠ TraversalHandlerResult.Stop)
          ∧ (handlerAt g h ⟨[], [], s0⟩ start).2 ≠ TraversalHandlerResult.SkipSubtree) := by
  obtain ⟨out, hout⟩ := traverseFromFull_isSome hb hs
  refine ⟨out, hout, ?_, ?_⟩
  · rw [traverse_from_eq hstart, hout]
  · rw [traverse_from_eq hstart, hout]
    obtain ⟨ctxr, r, log⟩ := out
    have hiff := (stop_iff g h (g.nodes.length + 1)).1 hout
    have htop := node_top_log (by simp) hout
    obtain ⟨rest, hlog, hskipiff⟩ := htop
    constructor
    · intro htrue
      have hr : r = TraversalHandlerResult.Continue := by
        have := Option.some.inj htrue
        by_contra hcon
        rw [decide_eq_true_iff] at this
        exact hcon this
      constructor
      · intro e he hes
        have : r = TraversalHandlerResult.Stop := hiff.mpr ⟨e, he, hes⟩
        rw [hr] at this
        cases this
      · intro hsk
        have : r = TraversalHandlerResult.SkipSubtree := hskipiff.mpr hsk
        rw [hr] at this
        cases this
    · rintro ⟨hnostop, hnoskip⟩
      have hrs : r ≠ TraversalHandlerResult.Stop := by
        intro hcon
        obtain ⟨e, he, hes⟩ := hiff.mp hcon
        exact hnostop e he hes
      have hrk : r ≠ TraversalHandlerResult.SkipSubtree := by
        intro hcon
        exact hnoskip (hskipiff.mp hcon)
      rw [thr_eq_continue hrs hrk]
      rfl

theorem C1_traverse_return_value_witness :
    gOne.index.lookup veNodeOne.code = some 0
    ∧ childIndicesBounded gOne ∧ 0 < gOne.nodes.length
    ∧ ∃ out, traverseFromFull gOne contHandler () 0 = some out
      ∧ traverse_from gOne contHandler () veNodeOne
          = some (decide (out.2.1 = TraversalHandlerResult.Continue))
      ∧ (traverse_from gOne contHandler () veNodeOne = some true ↔
          (∀ e ∈ out.2.2, e.2 ≠ TraversalHandlerResult.Stop)
          ∧ (handlerAt gOne contHandler ⟨[], [], ()⟩ 0).2
              ≠ TraversalHandlerResult.SkipSubtree) :=
  ⟨by decide, by decide, by decide,
    C1_traverse_return_value gOne contHandler () veNodeOne 0 (by decide) (by decide) (by decide)⟩

/-- C3: traversal terminates on every finite graph, back-edge cycles
included.  (a) A node whose arena index is already on the active path is
not re-visited or re-descended: the call returns immediately with
`Continue`, an unchanged context and no handler invocation.  (b) Fuel
exceeding by two any bound `L` on the length of simple paths from the
start node (avoiding the active path) suffices, so recursion depth is
bounded by the longest simple path.  (c) In particular the fuel
`traverse_from` uses never runs out for a valid start index. -/
theorem C3_termination_cycle_safety (g : Gmod) (h : GmodHandler S)
    (hb : childIndicesBounded g) :
    (∀ (fuel : Nat) (ctx : TraversalContext S) (i : Nat), i ∈ ctx.ids →
      traverseNodeF g h (fuel + 1) ctx i = some (ctx, .Continue, []))
    ∧ (∀ (L fuel : Nat) (ctx : TraversalContext S) (i : Nat),
        i ∉ ctx.ids → i < g.nodes.length → ctx.ids.Nodup →
        (∀ x ∈ ctx.ids, x < g.nodes.length) →
        (∀ k, SPathLen g ctx.ids i k → k ≤ L) →
        L + 2 ≤ fuel → ∃ out, traverseNodeF g h fuel ctx i = some out)
    ∧ (∀ (s0 : S) (start : Nat), start < g.nodes.length →
        ∃ out, traverseFromFull g h s0 start = some out) := by
  refine ⟨?_, ?_, ?_⟩
  · intro fuel ctx i hmem
    exact traverseNodeF_mem hmem
  · intro L fuel ctx i hmem hi hnd hbd hL hf
    exact (fuel_sufficient g h hb fuel).1 L ctx i hmem hi hnd hbd hL hf
  · intro s0 start hs
    exact traverseFromFull_isSome hb hs

theorem C3_termination_cycle_safety_witness :
    childIndicesBounded gCycle
    ∧ ((∀ (fuel : Nat) (ctx : TraversalContext Unit) (i : Nat), i ∈ ctx.ids →
        traverseNodeF gCycle contHandler (fuel + 1) ctx i = some (ctx, .Continue, []))
      ∧ (∀ (L fuel : Nat) (ctx : TraversalContext Unit) (i : Nat),
          i ∉ ctx.ids → i < gCycle.nodes.length → ctx.ids.Nodup →
          (∀ x ∈ ctx.ids, x < gCycle.nodes.length) →
          (∀ k, SPathLen gCycle ctx.ids i k → k ≤ L) →
          L + 2 ≤ fuel → ∃ out, traverseNodeF gCycle contHandler fuel ctx i = some out)
      ∧ (∀ (s0 : Unit) (start : Nat), start < gCycle.nodes.length →
          ∃ out, traverseFromFull gCycle contHandler s0 start = some out)) :=
  ⟨by decide, C3_termination_cycle_safety gCycle contHandler (by decide)⟩

/-- C4: if the handler answers `SkipSubtree` whenever it is shown the
node at arena index `N`, then (a) every node visited during a traversal
call is reachable from the start by a path on which `N` occurs at most as
the final vertex — so a node reachable only through `N` (strictly beyond
it) is never visited; and (b) a child call returning `SkipSubtree` does
not abort the sibling loop: the loop continues with the remaining
siblings from the returned context. -/
theorem C4_skip_subtree_suppresses_descent (g : Gmod) (h : GmodHandler S) (N : Nat)
    (hskip : ∀ s ps, (h s ps (g.nodes.getD N default)).2 = .SkipSubtree) :
    (∀ (s0 : S) (start : Nat) out,
        traverseFromFull g h s0 start = some out →
        ∀ e ∈ out.2.2, ReachAvoiding g N start e.1)
    ∧ (∀ (fuel : Nat) (ctx ctx1 : TraversalContext S) (c : Nat) (rest : List Nat)
        (log1 : List (Nat × TraversalHandlerResult)),
        traverseNodeF g h fuel ctx c = some (ctx1, .SkipSubtree, log1) →
        ∀ ctx2 r2 log2, traverseChildrenF g h fuel ctx1 rest = some (ctx2, r2, log2) →
          traverseChildrenF g h fuel ctx (c :: rest) = some (ctx2, r2, log1 ++ log2)) := by
  refine ⟨?_, ?_⟩
  · intro s0 start out hout e he
    exact (avoid_skip g h hskip (g.nodes.length + 1)).1 hout e he
  · intro fuel ctx ctx1 c rest log1 hc ctx2 r2 log2 hrest
    rw [traverseChildrenF_cons_eq, hc]
    have hgoal : (if TraversalHandlerResult.SkipSubtree = TraversalHandlerResult.Stop then
          some (ctx1, TraversalHandlerResult.Stop, log1)
        else
          match traverseChildrenF g h fuel ctx1 rest with
          | none => none
          | some (ctx2, r2, log2) => some (ctx2, r2, log1 ++ log2))
        = some (ctx2, r2, log1 ++ log2) := by
      rw [if_neg (by simp), hrest]
    exact hgoal

theorem C4_skip_subtree_suppresses_descent_witness :
    (∀ s ps, (skipAt300 s ps (gDiamond.nodes.getD 1 default)).2 = .SkipSubtree)
    ∧ ((∀ (s0 : Unit) (start : Nat) out,
        traverseFromFull gDiamond skipAt300 s0 start = some out →
        ∀ e ∈ out.2.2, ReachAvoiding gDiamond 1 start e.1)
      ∧ (∀ (fuel : Nat) (ctx ctx1 : TraversalContext Unit) (c : Nat) (rest : List Nat)
          (log1 : List (Nat × TraversalHandlerResult)),
          traverseNodeF gDiamond skipAt300 fuel ctx c = some (ctx1, .SkipSubtree, log1) →
          ∀ ctx2 r2 log2,
            traverseChildrenF gDiamond skipAt300 fuel ctx1 rest = some (ctx2, r2, log2) →
            traverseChildrenF gDiamond skipAt300 fuel ctx (c :: rest)
              = some (ctx2, r2, log1 ++ log2))) :=
  ⟨fun _ _ => rfl,
    C4_skip_subtree_suppresses_descent gDiamond skipAt300 1 (fun _ _ => rfl)⟩

/-- C5: a traversal from the root whose handler always returns `Continue`
invokes the handler at least once for every node reachable from the root
and the call (`Gmod::traverse`) returns true. -/
theorem C5_full_traversal_completeness (g : Gmod) (h : GmodHandler S) (s0 : S) (r : Nat)
    (hb : childIndicesBounded g)
    (hroot : g.index.lookup "VE" = some r) (hrlt : r < g.nodes.length)
    (hcode : (g.nodes.getD r default).code = "VE")
    (hconst : ∀ s ps nd, (h s ps nd).2 = .Continue) :
    ∃ out, traverseFromFull g h s0 r = some out
      ∧ Gmod.traverse g h s0 = some true
      ∧ ∀ j, Reach g r j → j ∈ out.2.2.map Prod.fst := by
  obtain ⟨out, hout⟩ := traverseFromFull_isSome hb hrlt
  have hcomp := (complete g h hconst (g.nodes.length + 1)).1 hout
  refine ⟨out, hout, ?_, ?_⟩
  · have hstart : g.index.lookup (g.nodes.getD r default).code = some r := by
      rw [hcode]
      exact hroot
    rw [traverse_eq hroot, traverse_from_eq hstart, hout]
    obtain ⟨ctxr, rr, log⟩ := out
    rw [show rr = TraversalHandlerResult.Continue from hcomp.1]
    rfl
  · intro j hj
    exact hcomp.2 j (reach_simple_avoid hj)

theorem C5_full_traversal_completeness_witness :
    childIndicesBounded gDiamond
    ∧ gDiamond.index.lookup "VE" = some 0 ∧ 0 < gDiamond.nodes.length
    ∧ (gDiamond.nodes.getD 0 default).code = "VE"
    ∧ ∃ out, traverseFromFull gDiamond contHandler () 0 = some out
      ∧ Gmod.traverse gDiamond contHandler () = some true
      ∧ ∀ j, Reach gDiamond 0 j → j ∈ out.2.2.map Prod.fst :=
  ⟨by decide, by decide, by decide, by decide,
    C5_full_traversal_completeness gDiamond contHandler () 0 (by decide) (by decide)
      (by decide) (by decide) (fun _ _ _ => rfl)⟩

/-- C7: for every taxonomy built by `Gmod.new` and every pair of arena
indices `(p, c)`, the multiplicity of `c` in `children[p]` equals the
multiplicity of `p` in `parents[c]`; in particular membership is
symmetric. -/
theorem C7_adjacency_symmetry (dto : GmodDto) (g : Gmod) (hg : Gmod.new dto = some g) :
    ∀ p c, (g.children.getD p []).count c = (g.parents.getD c []).count p
      ∧ (c ∈ g.children.getD p [] ↔ p ∈ g.parents.getD c []) := by
  obtain ⟨st, hst, hidx, hch, hpar, hnodes, hver⟩ := gmod_new_inv hg
  have hvals : ∀ q ∈ buildIndex dto.items 0 [], q.2 < dto.items.length := by
    intro q hq
    simpa using buildIndex_values_lt dto.items 0 [] (by simp) q hq
  have hsym := addRelations_sym hvals dto.relations _ st (by simp) (by simp)
    (by
      intro p c
      rw [getD_replicate_nil, getD_replicate_nil]
      simp)
    hst
  intro p c
  have hcount : (g.children.getD p []).count c = (g.parents.getD c []).count p := by
    rw [hch, hpar]
    exact hsym.2.2 p c
  refine ⟨hcount, ?_, ?_⟩
  · intro hmem
    have h0 := List.count_pos_iff.mpr hmem
    rw [hcount] at h0
    exact List.count_pos_iff.mp h0
  · intro hmem
    have h0 := List.count_pos_iff.mpr hmem
    rw [← hcount] at h0
    exact List.count_pos_iff.mp h0

theorem C7_adjacency_symmetry_witness :
    Gmod.new dtoDiamond = some gDiamond
    ∧ ∀ p c, (gDiamond.children.getD p []).count c = (gDiamond.parents.getD c []).count p
      ∧ (c ∈ gDiamond.children.getD p [] ↔ p ∈ gDiamond.parents.getD c []) :=
  ⟨rfl, C7_adjacency_symmetry dtoDiamond gDiamond rfl⟩

/-- C8: the lookup operation (modelled from the spec, since only its
binding-layer callers appear in the sources): `try_get_node` returns the
node whose code exactly matches the query, returns `none` (rather than
failing) when the code is absent from the index, returns the indexed node
on a hit, and `get_node` is the same lookup with the absent case a panic
(both modelled on `Option`). -/
theorem C8_lookup_exact_match_and_optional (dto : GmodDto) (g : Gmod)
    (hg : Gmod.new dto = some g) :
    (∀ code n, try_get_node g code = some n → n.code = code)
    ∧ (∀ code, g.index.lookup code = none → try_get_node g code = none)
    ∧ (∀ code i, g.index.lookup code = some i →
        try_get_node g code = some (g.nodes.getD i default))
    ∧ (∀ code, get_node g code = try_get_node g code) := by
  refine ⟨?_, ?_, ?_, fun code => rfl⟩
  · intro code n htry
    unfold try_get_node at htry
    cases hl : g.index.lookup code with
    | none =>
      rw [hl] at htry
      cases htry
    | some i =>
      rw [hl] at htry
      have h2 : some (g.nodes.getD i default) = some n := htry
      cases h2
      exact (gmod_new_lookup_code hg hl).2
  · intro code hl
    unfold try_get_node
    rw [hl]
  · intro code i hl
    unfold try_get_node
    rw [hl]

theorem C8_lookup_exact_match_and_optional_witness :
    Gmod.new dtoDiamond = some gDiamond
    ∧ ((∀ code n, try_get_node gDiamond code = some n → n.code = code)
      ∧ (∀ code, gDiamond.index.lookup code = none → try_get_node gDiamond code = none)
      ∧ (∀ code i, gDiamond.index.lookup code = some i →
          try_get_node gDiamond code = some (gDiamond.nodes.getD i default))
      ∧ (∀ code, get_node gDiamond code = try_get_node gDiamond code)) :=
  ⟨rfl, C8_lookup_exact_match_and_optional dtoDiamond gDiamond rfl⟩

/-- C2 counterexample: `Vis::get_gmod` does not return a typed load error
to the caller — its only outcomes are a taxonomy or a panic.  With a
record source that fails (cause "resource not found") and an empty cache,
the call produces no value at all (the `expect` panic, modelled `none`)
and the cache stays empty; no error value reaches the caller. -/
theorem C2_counterexample :
    get_gmod errSource [] "3-4a" = (none, []) :=
  rfl

/-- C2 (amended): when the record source cannot supply a definition for an
uncached version, `Vis::get_gmod` converts the cause into
`VisError::FailedToLoad` and immediately `expect`-unwraps it — a panic
(modelled: no value is returned) rather than a typed error return — and
no partial or corrupt taxonomy is stored: the cache is unchanged. -/
theorem C2_load_failure_panics_nothing_cached
    (source : String → Except String GmodDto) (cache : List (String × Gmod))
    (version : String) (e : String)
    (hmiss : cache.lookup version = none) (hsrc : source version = Except.error e) :
    get_gmod source cache version = (none, cache) := by
  unfold get_gmod
  rw [hmiss]
  have hgoal : (match source version with
      | .error _ => ((none : Option Gmod), cache)
      | .ok dto =>
        match Gmod.new dto with
        | none => (none, cache)
        | some g => (some g, cache ++ [(version, g)])) = (none, cache) := by
    rw [hsrc]
  exact hgoal

theorem C2_load_failure_panics_nothing_cached_witness :
    ([] : List (String × Gmod)).lookup "3-4a" = none
    ∧ errSource "3-4a" = Except.error "resource not found"
    ∧ get_gmod errSource [] "3-4a" = (none, []) :=
  ⟨rfl, rfl, C2_load_failure_panics_nothing_cached errSource [] "3-4a"
    "resource not found" rfl rfl⟩

end VistaSdk
